import Mathlib

/-!
# Verification of korylprince/drive-archive

A shallow embedding of the drive-archive program (package `drive`: `tree.go`,
the download coordinator file, and `main.go`) together with proofs about it.

The Go program manipulates a pointer graph of `*File` nodes; here the heap is
made explicit as an association list from node id to node (`NodeMap`), and the
pointer fields (`Files`, `Parents`, `ShortcutTarget`) store ids resolved
through that map.  Go `map` iteration order is unspecified; this embedding
iterates maps in insertion order (no claim below depends on the pre-sort
order of child lists).  External collaborators (the Drive HTTP API, the
filesystem, `crypto/md5`, `time.Parse`) are modelled at their interface, as
explained at each definition.
-/

namespace Drive

/-! ## Mime-type tables (`tree.go`) -/

def FileTypeFolder : String := "application/vnd.google-apps.folder"

def FileTypeShortcut : String := "application/vnd.google-apps.shortcut"

/-- `FileTypeSDKPrefix` in the source (renamed here). -/
def FileTypeSDKPre : String := "application/vnd.google-apps.drive-sdk."

def ErrReasonRateLimitExceeded : String := "rateLimitExceeded"

def ExportTypes : List (String × String) :=
  [ ("application/vnd.google-apps.document",
     "application/vnd.openxmlformats-officedocument.wordprocessingml.document"),
    ("application/vnd.google-apps.presentation",
     "application/vnd.openxmlformats-officedocument.presentationml.presentation"),
    ("application/vnd.google-apps.spreadsheet",
     "application/vnd.openxmlformats-officedocument.spreadsheetml.sheet"),
    ("application/vnd.google-apps.drawing", "image/svg+xml"),
    ("application/vnd.google-apps.jam", "application/pdf"),
    ("application/vnd.google-apps.script", "application/vnd.google-apps.script+json"),
    ("application/vnd.google-apps.form", "application/zip"),
    ("application/vnd.google-apps.site", "text/plain") ]

def ExportExtensions : List (String × String) :=
  [ ("application/vnd.google-apps.document", ".docx"),
    ("application/vnd.google-apps.presentation", ".pptx"),
    ("application/vnd.google-apps.spreadsheet", ".xlsx"),
    ("application/vnd.google-apps.drawing", ".svg"),
    ("application/vnd.google-apps.jam", ".pdf"),
    ("application/vnd.google-apps.script", ".json"),
    ("application/vnd.google-apps.form", ".zip"),
    ("application/vnd.google-apps.site", ".txt") ]

def SkipTypes : List String :=
  ["application/vnd.google-apps.fusiontable", "application/vnd.google-apps.map"]

/-! ## Path and name handling -/

/-- The allow-list of `ValidPathChars`: letters, digits, space and the punctuation
set of the regular expression; every other character is stripped from names. -/
def allowedChar (c : Char) : Bool :=
  (decide ('a' ≤ c) && decide (c ≤ 'z')) ||
  (decide ('A' ≤ c) && decide (c ≤ 'Z')) ||
  (decide ('0' ≤ c) && decide (c ≤ '9')) ||
  decide (c ∈ [' ', '!', '@', '#', '$', '%', '^', '&', '(', ')', '-', '_', '=', '+',
      '[', ']', Char.ofNat 123, Char.ofNat 125, Char.ofNat 39, ';', '.', ',',
      Char.ofNat 96, '~'])

/-- `ValidPathChars.ReplaceAllString(s, "")`: keep only allow-listed characters. -/
def sanitize (s : String) : String := ⟨s.data.filter allowedChar⟩

/-- `filepath.Join` restricted to the two-argument, slash-free-component uses of
the program (sanitized names never contain a slash, so no cleaning occurs). -/
def joinPath (a b : String) : String :=
  if a = "" then b else if b = "" then a else a ++ "/" ++ b

/-- Helper for `pathExt`: given the reversed character list of a path, the
reversed characters of its extension (scan backward for a dot, stopping at a
slash, as `filepath.Ext` does). -/
def extRev (l : List Char) : List Char :=
  let pre := l.takeWhile fun c => decide (c ≠ '/')
  if '.' ∈ pre then (pre.takeWhile fun c => decide (c ≠ '.')) ++ ['.'] else []

/-- `filepath.Ext`: the suffix of the final path element starting at its last dot
(empty when the final element has no dot). -/
def pathExt (s : String) : String := ⟨(extRev s.data.reverse).reverse⟩

/-- `strings.HasPrefix`. -/
def hasPre (s pre : String) : Bool := decide (s.data.take pre.data.length = pre.data)

/-! ## Data model (`tree.go`): records and nodes -/

/-- One `*drive.File` metadata record (the fields the program reads; a `none`
`shortcutTarget` is a `nil` `ShortcutDetails`). -/
structure GFile where
  id : String
  name : String
  mimeType : String
  md5Checksum : String := ""
  modifiedTime : String := ""
  parents : List String := []
  shortcutTarget : Option String := none
deriving DecidableEq, Repr

/-- The `drive.File` tree node of `tree.go` (`ID`, `Name`, `File`, `Files`,
`Parents`, `ShortcutTarget`).  Pointer fields hold ids resolved through the
`NodeMap`; `files = none` is a `nil` child slice (non-folder), distinct from
`some []` (empty folder).  The source also appends the synthetic orphan root
(which has no id) to the `Parents` of orphaned nodes; that back-pointer is
recorded here only through the orphan root's own child list. -/
structure Node where
  id : String
  name : String
  file : GFile
  files : Option (List String) := none
  parents : List String := []
  shortcutTarget : Option String := none
deriving DecidableEq, Repr

/-- The pointer heap: an association list from node id to node. -/
abbrev NodeMap := List (String × Node)

def Node.isFolder (n : Node) : Bool := n.file.mimeType = FileTypeFolder

/-! ## Association-list primitives (the explicit heap) -/

def lookupA {α : Type} : List (String × α) → String → Option α
  | [], _ => none
  | (k, v) :: rest, key => if key = k then some v else lookupA rest key

def updateA {α : Type} (key : String) (g : α → α) : List (String × α) → List (String × α)
  | [] => []
  | (k, v) :: rest => if key = k then (k, g v) :: rest else (k, v) :: updateA key g rest

def upsertA {α : Type} (m : List (String × α)) (key : String) (v : α) : List (String × α) :=
  if (lookupA m key).isSome then updateA key (fun _ => v) m else m ++ [(key, v)]

/-! ## `NewTree` (`tree.go`) -/

/-- First pass of `NewTree`: one node per record (empty child list only for
folders, parents pre-allocated empty). -/
def mkNode (f : GFile) : Node :=
  { id := f.id, name := f.name, file := f,
    files := if f.mimeType = FileTypeFolder then some [] else none,
    parents := [], shortcutTarget := none }

/-- The synthetic root: `&File{ID: rootID, Name: "My Drive", File: folder, Files: []}`. -/
def rootNode (rootID : String) : Node :=
  { id := rootID, name := "My Drive",
    file := { id := "", name := "", mimeType := FileTypeFolder },
    files := some [], parents := [], shortcutTarget := none }

/-- First pass: build the `nodes` map, skipping any record carrying the root id. -/
def buildNodes (rootID : String) (list : List GFile) : NodeMap :=
  list.foldl (fun m f => if f.id = rootID then m else upsertA m f.id (mkNode f))
    [(rootID, rootNode rootID)]

/-- Second pass of `NewTree` on one node: link a shortcut node to its target id
when the target is present in the map. -/
def resolveNode (m : NodeMap) (n : Node) : Node :=
  if n.file.mimeType = FileTypeShortcut then
    match n.file.shortcutTarget with
    | some tid =>
      if (lookupA m tid).isSome then { n with shortcutTarget := some tid } else n
    | none => n
  else n

/-- Second pass: resolve shortcuts. -/
def resolvePass (m : NodeMap) : NodeMap := m.map fun kv => (kv.1, resolveNode m kv.2)

/-- The child-id list of the node stored at `pid` (empty for absent nodes and
`nil` slices). -/
def filesAt (m : NodeMap) (pid : String) : List String :=
  match lookupA m pid with
  | some p => p.files.getD []
  | none => []

/-- `p, ok := nodes[pid]; ok && p.IsFolder()`. -/
def folderAt (m : NodeMap) (pid : String) : Bool :=
  match lookupA m pid with
  | some p => p.isFolder
  | none => false

/-- The parent ids listed on the metadata record of the node stored at `fid`
(the `f.File.Parents` the third pass reads; records are never mutated). -/
def recordParents (m : NodeMap) (fid : String) : List String :=
  match lookupA m fid with
  | some n => n.file.parents
  | none => []

/-- `p.Files = append(p.Files, f)`. -/
def appendChild (m : NodeMap) (pid fid : String) : NodeMap :=
  updateA pid (fun p => { p with files := some (p.files.getD [] ++ [fid]) }) m

/-- `f.Parents = append(f.Parents, p)`. -/
def appendParent (m : NodeMap) (fid pid : String) : NodeMap :=
  updateA fid (fun n => { n with parents := n.parents ++ [pid] }) m

/-- One parent-id trial of the third pass: a parent id naming a folder present
in the map receives `fid` as a child (and is recorded as a parent of `fid`) and
sets the `found` flag. -/
def connectStep (fid : String) (st : NodeMap × Bool) (pid : String) : NodeMap × Bool :=
  if folderAt st.1 pid then (appendParent (appendChild st.1 pid fid) fid pid, true)
  else st

/-- The inner loop of the third pass: try every parent id of `fid`; the Bool is
the `found` flag. -/
def connectOne (m : NodeMap) (fid : String) (pids : List String) : NodeMap × Bool :=
  pids.foldl (connectStep fid) (m, false)

/-- The third-pass body for one node: skip the root, connect everything else,
collecting nodes with no valid parent for the orphan root. -/
def connectNode (rootID : String) (st : NodeMap × List String) (fid : String) :
    NodeMap × List String :=
  if fid = rootID then st
  else
    match lookupA st.1 fid with
    | none => st
    | some f =>
      let r := connectOne st.1 fid f.file.parents
      if r.2 then (r.1, st.2) else (r.1, st.2 ++ [fid])

/-- Third pass of `NewTree`: connect every non-root node to its valid folder
parents; nodes with no valid parent are collected (in iteration order) as
children of the synthetic orphan root. -/
def connectPass (rootID : String) (m : NodeMap) : NodeMap × List String :=
  (m.map Prod.fst).foldl (connectNode rootID) (m, [])

/-- Sort key: the sanitized display name of the node with the given id. -/
def nameKey (m : NodeMap) (i : String) : String :=
  match lookupA m i with
  | some n => sanitize n.name
  | none => ""

/-- Go's `<` on strings: lexicographic byte order.  Sanitized names and Drive
ids are ASCII, where byte order and character-code order agree. -/
def charLt (a b : Char) : Bool := decide (a.toNat < b.toNat)

def lexLt : List Char → List Char → Bool
  | [], [] => false
  | [], _ :: _ => true
  | _ :: _, [] => false
  | a :: as, b :: bs => if charLt a b then true else if charLt b a then false else lexLt as bs

def strLt (a b : String) : Bool := lexLt a.data b.data

/-- The `sortfunc` comparator: sanitized name first, id as tie-break. -/
def idLt (m : NodeMap) (i j : String) : Bool :=
  let ni := nameKey m i
  let nj := nameKey m j
  if ni = nj then strLt i j else strLt ni nj

/-- Stable insertion (an element is placed after every element it does not
strictly precede), used to realize the stable sort `sort.SliceStable`. -/
def stableInsert (lt : String → String → Bool) (x : String) : List String → List String
  | [] => [x]
  | y :: ys => if lt x y then x :: y :: ys else y :: stableInsert lt x ys

/-- Stable sort: processing elements left to right keeps the original order of
elements the comparator does not distinguish, as `sort.SliceStable` does; for
the strict weak order `idLt` the stable-sorted list is unique, so this agrees
with the source's sort. -/
def stableSort (lt : String → String → Bool) (l : List String) : List String :=
  l.foldl (fun acc x => stableInsert lt x acc) []

/-- `sortfunc` applied to one node: sort its child list and parent list. -/
def sortNode (m : NodeMap) (n : Node) : Node :=
  { n with files := n.files.map (stableSort (idLt m)),
           parents := stableSort (idLt m) n.parents }

/-- The sorting pass.  Modeling note: the source applies `sortfunc` through
`root.Walk` and `orphans.Walk`, sorting exactly the nodes reachable from the two
roots (each possibly several times — the sort is idempotent and reads only
immutable names); here the same per-node sort is applied to every node of the
map, which agrees on every reachable node. -/
def sortPass (m : NodeMap) : NodeMap := m.map fun kv => (kv.1, sortNode m kv.2)

/-- The synthetic orphan root `&File{Name: "Other Files", File: folder, Files: ...}`
(its `ID` is the empty string; it is not stored in the node map). -/
def orphanNode (children : List String) : Node :=
  { id := "", name := "Other Files",
    file := { id := "", name := "", mimeType := FileTypeFolder },
    files := some children, parents := [], shortcutTarget := none }

/-- The result of `NewTree`: the heap plus the two roots. -/
structure BuiltTree where
  nodes : NodeMap
  root : Node
  orphans : Node
deriving Repr

/-- `NewTree(rootID, list)`. -/
def newTree (rootID : String) (list : List GFile) : BuiltTree :=
  let m0 := buildNodes rootID list
  let m1 := resolvePass m0
  let c := connectPass rootID m1
  let m3 := sortPass c.1
  { nodes := m3,
    root := (lookupA m3 rootID).getD (rootNode rootID),
    orphans := sortNode c.1 (orphanNode c.2) }

/-! ## `Walk` (`tree.go`) -/

/-- One queued traversal entry: the node, the path chosen for it, and the set of
ancestor ids on its own root-to-entry path (a list with set semantics). -/
structure WalkEntry where
  node : Node
  path : String
  parents : List String
deriving Repr

/-- `if n.f.ShortcutTarget != nil { n.f = n.f.ShortcutTarget }`.  In trees built
by `NewTree` the target id is always present in the map (the second pass links
only existing targets), so the fallback branch never fires there. -/
def resolveShortcut (m : NodeMap) (n : Node) : Node :=
  match n.shortcutTarget with
  | some tid =>
    match lookupA m tid with
    | some t => t
    | none => n
  | none => n

/-- The child nodes of `n` resolved through the heap (in the source, `n.f.Files`
holds the pointers directly, which are always valid). -/
def childNodes (m : NodeMap) (n : Node) : List Node :=
  (n.files.getD []).filterMap (lookupA m)

/-- `a ∈ l ? l : a :: l` — the set-insert used for the carried ancestor set. -/
def insertId (a : String) (l : List String) : List String :=
  if a ∈ l then l else a :: l

/-- The loop body of `Walk`, fuelled (the source's loop need not terminate; see
the C2 theorem).  The visit function threads a state `σ` (the closures of the
source capture their state) and may return an error, which stops the walk
immediately with the state reached so far. -/
def walkAux {σ ε : Type} (m : NodeMap) (visit : String → Node → σ → σ × Option ε) :
    Nat → List WalkEntry → σ → Option (σ × Option ε)
  | _, [], s => some (s, none)
  | 0, _ :: _, _ => none
  | fuel + 1, e :: q, s =>
    if e.node.id ∈ e.parents then walkAux m visit fuel q s
    else
      let nf := resolveShortcut m e.node
      let r := visit e.path nf s
      match r.2 with
      | some er => some (r.1, some er)
      | none =>
        let ps := insertId nf.id e.parents
        walkAux m visit fuel
          (q ++ (childNodes m nf).map fun c =>
            { node := c, path := joinPath e.path (sanitize c.name), parents := ps })
          r.1

/-- The initial queue entry of `Walk`: the receiver with its sanitized name as
path and an empty ancestor set. -/
def startEntry (n : Node) : WalkEntry := { node := n, path := sanitize n.name, parents := [] }

/-- `root.Walk(f)`, fuelled. -/
def walkRun {σ ε : Type} (m : NodeMap) (start : Node)
    (visit : String → Node → σ → σ × Option ε) (fuel : Nat) (s0 : σ) :
    Option (σ × Option ε) :=
  walkAux m visit fuel [startEntry start] s0

/-- A visit function that records each `(path, node id)` pair, for observing walks. -/
def collectVisit (path : String) (n : Node) (s : List (String × String)) :
    List (String × String) × Option Unit :=
  (s ++ [(path, n.id)], none)

/-- The trivial visit function. -/
def unitVisit (_ : String) (_ : Node) (_ : Unit) : Unit × Option Unit := ((), none)

/-! ## `DownloadTree` (download coordinator file) -/

/-- `files[path]`, reading a missing key as `0` (Go map semantics). -/
def valAt (files : List (String × Nat)) (p : String) : Nat := (lookupA files p).getD 0

/-- `files[path] += 1` (inserting the key on first touch). -/
def bump (files : List (String × Nat)) (p : String) : List (String × Nat) :=
  if (lookupA files p).isSome then updateA p (· + 1) files else files ++ [(p, 1)]

/-- `path = fmt.Sprintf("%s_%d%s", base, n, ext)` with `ext := filepath.Ext(path)`
and `base := path[:len(path)-len(ext)]` (byte slicing of Go coincides with
character slicing here because the cut point is a character boundary of `path`). -/
def renamePath (p : String) (n : Nat) : String :=
  let ext := pathExt p
  let base : String := ⟨p.data.take (p.data.length - ext.data.length)⟩
  base ++ "_" ++ toString n ++ ext

/-- The `checkpath` goto loop, fuelled: count the candidate path, and while its
occurrence count exceeds one, rename and re-check. -/
def uniquifyGo : Nat → List (String × Nat) → String → Option (List (String × Nat) × String)
  | 0, _, _ => none
  | fuel + 1, files, p =>
    let files' := bump files p
    if 1 < valAt files' p then uniquifyGo fuel files' (renamePath p (valAt files' p))
    else some (files', p)

/-- Fuel bound for `uniquifyGo`: the number of recorded paths at least as long as
the candidate (each round moves to a strictly longer candidate that was already
recorded, so this strictly decreases). -/
def uMeasure (files : List (String × Nat)) (p : String) : Nat :=
  (files.filter fun kv => decide (p.data.length ≤ kv.1.data.length)).length

/-- The `checkpath` loop as a total function: `uniquifyGo` run with provably
sufficient fuel (`uniquifyGo_total` below shows the default is never taken). -/
def uniquify (files : List (String × Nat)) (p : String) : List (String × Nat) × String :=
  (uniquifyGo (uMeasure files p + 1) files p).getD (files, p)

/-- The producer-side state of `DownloadTree`: the occurrence-counter map, the
jobs sent to the worker channel so far (in send order), and the directories
created so far. -/
structure DTState where
  files : List (String × Nat)
  jobs : List (String × Node)
  dirs : List String
deriving DecidableEq, Repr

def initDT : DTState := { files := [], jobs := [], dirs := [] }

/-- The walk closure of `DownloadTree`.  `os.MkdirAll` is an external effect;
its failure is modelled by the oracle `mkdirFail`.  Folders create a directory
and produce no job; an unresolved shortcut (still carrying the shortcut mime
type after `Walk`'s resolution step) is logged and skipped; otherwise the export
extension is appended when the mime type has one, the path is made unique, and
the job is sent. -/
def downloadVisit (mkdirFail : String → Bool) (path : String) (f : Node) (s : DTState) :
    DTState × Option String :=
  if f.isFolder then
    if mkdirFail path then (s, some (path ++ ": could not create directory"))
    else ({ s with dirs := s.dirs ++ [path] }, none)
  else if f.file.mimeType = FileTypeShortcut then (s, none)
  else
    let p1 := match lookupA ExportExtensions f.file.mimeType with
      | some ext => path ++ ext
      | none => path
    let r := uniquify s.files p1
    ({ s with files := r.1, jobs := s.jobs ++ [(r.2, f)] }, none)

/-- `DownloadTree`'s producer: run the walk with the download closure and wrap a
walk error as the source does.  The worker pool runs concurrently in the source;
the jobs it consumes are exactly `DTState.jobs`, and a walk error is the only
error the call can return (workers never produce one — `downloader_result`). -/
def DownloadTree (m : NodeMap) (root : Node) (mkdirFail : String → Bool) (fuel : Nat) :
    Option (DTState × Option String) :=
  match walkRun m root (downloadVisit mkdirFail) fuel initDT with
  | none => none
  | some (s, some e) => some (s, some ("could not finish walking tree: " ++ e))
  | some (s, none) => some (s, none)

/-- One worker (`downloader`): drain the job stream; `outcome p` is the
`(downloaded, err)` pair `DownloadFile` produced for the job at path `p`
(an external effect from the worker's point of view).  Returns the log lines
and the worker's return value. -/
def downloader (outcome : String → Bool × Option String) :
    List (String × Node) → List String × Option String
  | [] => ([], none)
  | (p, _) :: rest =>
    let r := outcome p
    let line :=
      match r.2 with
      | some e => p ++ ": could not download file: " ++ e
      | none => if r.1 then p ++ ": downloaded" else p ++ ": skipped existing file"
    let t := downloader outcome rest
    (line :: t.1, t.2)

/-! ## `checkRetry` and `retry` (`tree.go`) -/

/-- An error as classified by `errors.As(err, &googleapi.Error)`: an API error
with its status code and the reasons of its error items, or any other
(wrapped network-level, filesystem, ...) error. -/
inductive GoError where
  | api (code : Nat) (reasons : List String)
  | other
deriving DecidableEq, Repr

/-- `checkRetry returns true if a retry should be tried`. -/
def checkRetry : GoError → Bool
  | .api code reasons =>
    if code = 400 ∨ code = 401 ∨ code = 404 ∨ code = 501 then false
    else if code = 403 then decide (ErrReasonRateLimitExceeded ∈ reasons)
    else true
  | .other => false

/-- The classification the CLAIM describes, following the spec's words
(permanent = bad-request/unauthorized/not-found/not-implemented, or a 403
without the rate/quota reason; **everything else**, including non-API
network-level failures, retryable) — for contrast with `checkRetry`. -/
def specRetryable : GoError → Bool
  | .api code reasons =>
    if code = 400 ∨ code = 401 ∨ code = 404 ∨ code = 501 then false
    else if code = 403 then decide (ErrReasonRateLimitExceeded ∈ reasons)
    else true
  | .other => true

/-- The observable trace of one `retry` call: how many times `f` ran, the sleep
durations in order, and the returned error (`none` = success). -/
structure RetryResult where
  calls : Nat
  sleeps : List Nat
  result : Option GoError
deriving DecidableEq, Repr

/-- The loop of `retry`, fuelled (with `maxTries <= 0` and persistent retryable
failures the source loops forever).  `f i` is the outcome of the `i`-th
invocation of the operation (0-based); `start` is the current delay and `tries`
the count of completed attempts. -/
def retryAux (f : Nat → Option GoError) (maxTries : Int) :
    Nat → Nat → Nat → Option RetryResult
  | 0, _, _ => none
  | fuel + 1, start, tries =>
    match f tries with
    | none => some { calls := tries + 1, sleeps := [], result := none }
    | some e =>
      if ((tries : Int) + 1) = maxTries then
        some { calls := tries + 1, sleeps := [], result := some e }
      else if checkRetry e = false then
        some { calls := tries + 1, sleeps := [], result := some e }
      else
        match retryAux f maxTries fuel (start * 2) (tries + 1) with
        | none => none
        | some r => some { r with sleeps := start :: r.sleeps }

/-- `retry(start, maxTries, f)`, fuelled. -/
def retryRun (start : Nat) (maxTries : Int) (f : Nat → Option GoError) (fuel : Nat) :
    Option RetryResult :=
  retryAux f maxTries fuel start 0

/-! ## Local filesystem, `writeBody`, `DownloadFile` (`tree.go`) -/

/-- A local file: its byte content and its modification time (instants are
abstract naturals). -/
structure LocalFile where
  content : String
  mtime : Nat
deriving DecidableEq, Repr

/-- The local filesystem visible to the program: path to file. -/
abbrev FS := List (String × LocalFile)

/-- Modelled from the spec: the content checksum (`crypto/md5` plus hex encoding,
an external library).  Abstracted to an injective tag; like a real 32-character
hex digest it is never the empty string, so verification against an unknown
(empty) remote checksum always fails. -/
def md5hex (content : String) : String := "md5:" ++ content

/-- `md5Verify`: a file exists at `path` and its digest equals `hash`. -/
def md5Verify (fs : FS) (path hash : String) : Bool :=
  match lookupA fs path with
  | some f => md5hex f.content = hash
  | none => false

/-- `mtimeVerify`: a file exists at `path` and `!mtime(file).Before(t)`. -/
def mtimeVerify (fs : FS) (path : String) (t : Nat) : Bool :=
  match lookupA fs path with
  | some f => decide (¬ f.mtime < t)
  | none => false

def digitsToNat (l : List Char) : Nat := l.foldl (fun a c => a * 10 + (c.toNat - 48)) 0

/-- Modelled from the spec: `time.Parse(time.RFC3339, s)` (standard library,
external to the repository), restricted to the `YYYY-MM-DDTHH:MM:SSZ` form;
any other string is rejected.  The instant is encoded so that chronological
order on this form is numeric order. -/
def parseRFC3339 (s : String) : Option Nat :=
  match s.data with
  | [y1, y2, y3, y4, e1, m1, m2, e2, d1, d2, k, h1, h2, c1, n1, n2, c2, s1, s2, z] =>
    if e1 = '-' ∧ e2 = '-' ∧ k = 'T' ∧ c1 = ':' ∧ c2 = ':' ∧ z = 'Z' ∧
        ([y1, y2, y3, y4, m1, m2, d1, d2, h1, h2, n1, n2, s1, s2].all Char.isDigit) then
      some (digitsToNat [y1, y2, y3, y4, m1, m2, d1, d2, h1, h2, n1, n2, s1, s2])
    else none
  | _ => none

/-- `writeBody(r, path, timestamp)` after the body `body` was fetched: create
(truncate) the file at `path` — its mtime becomes the current instant `now` —
copy the body, then set the mtime from `timestamp`: an empty timestamp returns
silently, an unparsable one is an error (after the write), a valid one is
applied with `os.Chtimes`. -/
def writeBody (fs : FS) (now : Nat) (body : String) (path timestamp : String) :
    FS × Option String :=
  let fs1 := upsertA fs path { content := body, mtime := now }
  if timestamp = "" then (fs1, none)
  else
    match parseRFC3339 timestamp with
    | none => (fs1, some "could not parse modified time")
    | some t => (upsertA fs1 path { content := body, mtime := t }, none)

/-- `Service.Download` once the retry-wrapped content request succeeded with
body `body`: stream to `path` and stamp the remote modified time. -/
def Download (fs : FS) (now : Nat) (body : String) (f : GFile) (path : String) :
    FS × Option String :=
  writeBody fs now body path f.modifiedTime

/-- `Service.Export` (and its `exportAlt` fallback) once the export request
succeeded with body `body`: identical write path. -/
def Export (fs : FS) (now : Nat) (body : String) (f : GFile) (path : String) :
    FS × Option String :=
  writeBody fs now body path f.modifiedTime

/-- The decision `DownloadFile` takes, separated from the transfer effect:
`skipNoExportable` is `(false, ErrNoExportableFormat)`, `skipMatched` is
`(false, nil)`, `doExport typ` is `(true, s.Export(f, typ, path))`, and
`doDownload` is `(true, s.Download(f, path))`. -/
inductive DFResult where
  | skipNoExportable
  | skipMatched
  | doExport (typ : String)
  | doDownload
deriving DecidableEq, Repr

/-- The `downloaded` flag of `DownloadFile` for each decision. -/
def DFResult.downloaded : DFResult → Bool
  | .skipNoExportable => false
  | .skipMatched => false
  | .doExport _ => true
  | .doDownload => true

/-- `DownloadFile(f, path)`: skip-listed and SDK types are unexportable;
export-convertible types skip when the remote modified time parses and the
local mtime is at or after it, else export; all other types skip when the
local MD5 matches, else download. -/
def DownloadFile (fs : FS) (f : GFile) (path : String) : DFResult :=
  if f.mimeType ∈ SkipTypes ∨ hasPre f.mimeType FileTypeSDKPre then .skipNoExportable
  else
    match lookupA ExportTypes f.mimeType with
    | some typ =>
      if f.modifiedTime ≠ "" then
        match parseRFC3339 f.modifiedTime with
        | some t => if mtimeVerify fs path t then .skipMatched else .doExport typ
        | none => .doExport typ
      else .doExport typ
    | none =>
      if md5Verify fs path f.md5Checksum then .skipMatched else .doDownload

/-! ## Reachability along child edges (for the C1 claim) -/

/-- One child edge of the heap: the node stored at `a` lists `b` as a child. -/
def childEdge (m : NodeMap) (a b : String) : Prop :=
  ∃ na, lookupA m a = some na ∧ b ∈ na.files.getD []

/-- `b` is reachable from `a` along child edges. -/
def MapReach (m : NodeMap) (a b : String) : Prop := Relation.ReflTransGen (childEdge m) a b

/-- `x` is reachable from the main root via child edges. -/
def ReachRoot (t : BuiltTree) (x : String) : Prop := MapReach t.nodes t.root.id x

/-- `x` is reachable from the orphan root via child edges (the orphan root is
not in the heap; its children are). -/
def ReachOrphans (t : BuiltTree) (x : String) : Prop :=
  ∃ c ∈ t.orphans.files.getD [], MapReach t.nodes c x

/-! ## Concrete inputs used by the claims -/

/-- C1: `x` has two parents, the designated root and the orphaned folder `p`
(whose own parent is missing); folders `a` and `b` form a parent cycle
disconnected from both roots. -/
def c1Records : List GFile :=
  [ { id := "x", name := "X", mimeType := "text/plain", parents := ["r", "p"] },
    { id := "p", name := "P", mimeType := FileTypeFolder, parents := ["zz"] },
    { id := "a", name := "A", mimeType := FileTypeFolder, parents := ["b"] },
    { id := "b", name := "B", mimeType := FileTypeFolder, parents := ["a"] } ]

def c1Tree : BuiltTree := newTree "r" c1Records

/-- C2: a shortcut that is a direct child of its own resolved target (a shortcut
to the drive root placed in the root, a legal Drive layout). -/
def c2Records : List GFile :=
  [ { id := "s", name := "S", mimeType := FileTypeShortcut, parents := ["a"],
      shortcutTarget := some "a" } ]

def c2Tree : BuiltTree := newTree "a" c2Records

/-- C3: two identically-named sibling files. -/
def c3Records : List GFile :=
  [ { id := "10", name := "Doc", mimeType := "text/plain", parents := ["1"] },
    { id := "11", name := "Doc", mimeType := "text/plain", parents := ["1"] } ]

def c3Tree : BuiltTree := newTree "1" c3Records

/-- C8: the end-to-end scenario of the claim. -/
def c8Records : List GFile :=
  [ { id := "1", name := "R", mimeType := FileTypeFolder },
    { id := "2", name := "A.txt", mimeType := "text/plain", md5Checksum := "abc",
      parents := ["1"] },
    { id := "3", name := "B", mimeType := FileTypeFolder, parents := ["1"] },
    { id := "4", name := "C", mimeType := FileTypeShortcut, parents := ["1"],
      shortcutTarget := some "2" } ]

def c8Tree : BuiltTree := newTree "1" c8Records

/-- C9: a shortcut `C` to an export-convertible document `D`. -/
def c9Records : List GFile :=
  [ { id := "2", name := "D", mimeType := "application/vnd.google-apps.document",
      parents := ["1"] },
    { id := "3", name := "C", mimeType := FileTypeShortcut, parents := ["1"],
      shortcutTarget := some "2" } ]

def c9Tree : BuiltTree := newTree "1" c9Records

/-- The shortcut node of `c2Tree` (its link target resolved by the second
pass of `NewTree`). -/
def c2S : Node :=
  { id := "s", name := "S",
    file := { id := "s", name := "S", mimeType := FileTypeShortcut, parents := ["a"],
              shortcutTarget := some "a" },
    files := none, parents := ["a"], shortcutTarget := some "a" }

/-- The root node of `c2Tree` as it sits in the heap: the synthetic root with
the shortcut as its only child. -/
def c2A : Node :=
  { id := "a", name := "My Drive",
    file := { id := "", name := "", mimeType := FileTypeFolder },
    files := some ["s"], parents := [], shortcutTarget := none }

/-- The invariant of the producer state: job paths are pairwise distinct, and
every job path has a strictly positive occurrence counter. -/
def dtInv (s : DTState) : Prop :=
  (s.jobs.map Prod.fst).Nodup ∧ ∀ p ∈ s.jobs.map Prod.fst, 1 ≤ valAt s.files p

/-! ## Association-list and list lemmas -/

theorem lookupA_append {α : Type} (l₁ l₂ : List (String × α)) (k : String) :
    lookupA (l₁ ++ l₂) k =
      match lookupA l₁ k with
      | some v => some v
      | none => lookupA l₂ k := by
  induction l₁ with
  | nil => simp [lookupA]
  | cons kv rest ih =>
    by_cases h : k = kv.1
    · simp [lookupA, h]
    · simpa [lookupA, h] using ih

theorem lookupA_updateA {α : Type} (key : String) (g : α → α) (l : List (String × α))
    (k : String) :
    lookupA (updateA key g l) k =
      if k = key then (lookupA l key).map g else lookupA l k := by
  induction l with
  | nil => simp [lookupA, updateA]
  | cons kv rest ih =>
    obtain ⟨k0, v0⟩ := kv
    by_cases h1 : key = k0
    · subst h1
      by_cases h2 : k = key <;> simp [lookupA, updateA, h2]
    · have h1' : ¬ k0 = key := fun h => h1 h.symm
      by_cases h2 : k = k0
      · subst h2
        simp [lookupA, updateA, h1, h1']
      · simp [lookupA, updateA, h1, h2, ih]

theorem updateA_keys {α : Type} (key : String) (g : α → α) (l : List (String × α)) :
    (updateA key g l).map Prod.fst = l.map Prod.fst := by
  induction l with
  | nil => rfl
  | cons kv rest ih =>
    obtain ⟨k0, v0⟩ := kv
    by_cases h : key = k0 <;> simp [updateA, h, ih]

theorem lookupA_mem {α : Type} (l : List (String × α)) (k : String) (v : α)
    (h : lookupA l k = some v) : (k, v) ∈ l := by
  induction l with
  | nil => simp [lookupA] at h
  | cons kv rest ih =>
    obtain ⟨k0, v0⟩ := kv
    by_cases h1 : k = k0
    · subst h1
      simp [lookupA] at h
      subst h
      exact List.mem_cons_self _ _
    · simp [lookupA, h1] at h
      exact List.mem_cons_of_mem _ (ih h)

theorem upsertA_of_none {α : Type} (m : List (String × α)) (k : String) (v : α)
    (h : lookupA m k = none) : upsertA m k v = m ++ [(k, v)] := by
  simp [upsertA, h]

theorem lookupA_mapSnd {α β : Type} (F : α → β) (m : List (String × α)) (k : String) :
    lookupA (m.map fun kv => (kv.1, F kv.2)) k = (lookupA m k).map F := by
  induction m with
  | nil => rfl
  | cons kv rest ih =>
    by_cases h : k = kv.1 <;> simp [lookupA, h, ih]

theorem lookupA_upsertA_self {α : Type} (m : List (String × α)) (k : String) (v : α) :
    lookupA (upsertA m k v) k = some v := by
  by_cases h : (lookupA m k).isSome
  · rw [upsertA, if_pos h, lookupA_updateA]
    obtain ⟨w, hw⟩ := Option.isSome_iff_exists.mp h
    simp [hw]
  · rw [upsertA, if_neg h, lookupA_append]
    simp only [Option.not_isSome_iff_eq_none] at h
    simp [h, lookupA]

theorem mem_insertId (x a : String) (l : List String) :
    x ∈ insertId a l ↔ x = a ∨ x ∈ l := by
  by_cases h : a ∈ l
  · simp only [insertId, if_pos h]
    constructor
    · exact Or.inr
    · rintro (rfl | hx)
      · exact h
      · exact hx
  · simp [insertId, if_neg h]

theorem filter_length_mono {α : Type} (P Q : α → Bool) (l : List α)
    (h : ∀ x ∈ l, Q x = true → P x = true) :
    (l.filter Q).length ≤ (l.filter P).length := by
  induction l with
  | nil => simp
  | cons a t ih =>
    have ht : ∀ x ∈ t, Q x = true → P x = true := fun x hx => h x (List.mem_cons_of_mem _ hx)
    by_cases hq : Q a = true
    · have hp : P a = true := h a (List.mem_cons_self _ _) hq
      simpa [List.filter_cons, hq, hp] using ih ht
    · by_cases hp : P a = true
      · simp only [List.filter_cons, hq, hp, Bool.false_eq_true, if_false, if_true,
          List.length_cons]
        exact Nat.le_succ_of_le (ih ht)
      · simpa [List.filter_cons, hq, hp] using ih ht

theorem filter_length_lt {α : Type} (P Q : α → Bool) (l : List α)
    (h : ∀ x ∈ l, Q x = true → P x = true)
    (x : α) (hx : x ∈ l) (hP : P x = true) (hQ : Q x = false) :
    (l.filter Q).length < (l.filter P).length := by
  induction l with
  | nil => simp at hx
  | cons a t ih =>
    have ht : ∀ y ∈ t, Q y = true → P y = true := fun y hy => h y (List.mem_cons_of_mem _ hy)
    rcases List.mem_cons.mp hx with rfl | hxt
    · simp only [List.filter_cons, hQ, hP, Bool.false_eq_true, if_false, if_true,
        List.length_cons]
      exact Nat.lt_succ_of_le (filter_length_mono P Q t ht)
    · by_cases hq : Q a = true
      · have hp : P a = true := h a (List.mem_cons_self _ _) hq
        simpa [List.filter_cons, hq, hp] using ih ht hxt
      · by_cases hp : P a = true
        · simp only [List.filter_cons, hp, hq, Bool.false_eq_true, if_false, if_true,
            List.length_cons]
          exact Nat.lt_succ_of_lt (ih ht hxt)
        · simpa [List.filter_cons, hq, hp] using ih ht hxt

/-! ## `retry` lemmas and the C4 / C5 claims -/

theorem retryAux_zero (f : Nat → Option GoError) (mt : Int) (start tries : Nat) :
    retryAux f mt 0 start tries = none := rfl

theorem retryAux_succ_none (f : Nat → Option GoError) (mt : Int) (fuel start tries : Nat)
    (hf : f tries = none) :
    retryAux f mt (fuel + 1) start tries =
      some { calls := tries + 1, sleeps := [], result := none } := by
  rw [retryAux, hf]

theorem retryAux_succ_some (f : Nat → Option GoError) (mt : Int) (fuel start tries : Nat)
    (e : GoError) (hf : f tries = some e) :
    retryAux f mt (fuel + 1) start tries =
      (if ((tries : Int) + 1) = mt then
        some { calls := tries + 1, sleeps := [], result := some e }
       else if checkRetry e = false then
        some { calls := tries + 1, sleeps := [], result := some e }
       else
        match retryAux f mt fuel (start * 2) (tries + 1) with
        | none => none
        | some r => some { r with sleeps := start :: r.sleeps }) := by
  rw [retryAux, hf]

theorem retryAux_calls_gt (f : Nat → Option GoError) (mt : Int) :
    ∀ fuel start tries r, retryAux f mt fuel start tries = some r → tries < r.calls := by
  intro fuel
  induction fuel with
  | zero => intro start tries r h; exact absurd h (by simp [retryAux_zero])
  | succ n ih =>
    intro start tries r h
    cases hf : f tries with
    | none =>
      rw [retryAux_succ_none f mt n start tries hf] at h
      injection h with h
      subst h
      exact Nat.lt_succ_self _
    | some e =>
      rw [retryAux_succ_some f mt n start tries e hf] at h
      by_cases h1 : ((tries : Int) + 1) = mt
      · rw [if_pos h1] at h; injection h with h; subst h; exact Nat.lt_succ_self _
      · rw [if_neg h1] at h
        by_cases h2 : checkRetry e = false
        · rw [if_pos h2] at h; injection h with h; subst h; exact Nat.lt_succ_self _
        · rw [if_neg h2] at h
          cases hr : retryAux f mt n (start * 2) (tries + 1) with
          | none => simp only [hr] at h; exact Option.noConfusion h
          | some r' =>
            simp only [hr] at h
            injection h with h
            subst h
            exact Nat.lt_of_succ_lt (ih (start * 2) (tries + 1) r' hr)

theorem retryAux_calls_le (f : Nat → Option GoError) (mt : Int) :
    ∀ (fuel start tries : Nat) (r : RetryResult), (tries : Int) < mt →
      retryAux f mt fuel start tries = some r → (r.calls : Int) ≤ mt := by
  intro fuel
  induction fuel with
  | zero => intro start tries r _ h; exact absurd h (by simp [retryAux_zero])
  | succ n ih =>
    intro start tries r hlt h
    cases hf : f tries with
    | none =>
      rw [retryAux_succ_none f mt n start tries hf] at h
      injection h with h
      subst h
      show ((tries + 1 : Nat) : Int) ≤ mt
      push_cast
      omega
    | some e =>
      rw [retryAux_succ_some f mt n start tries e hf] at h
      by_cases h1 : ((tries : Int) + 1) = mt
      · rw [if_pos h1] at h; injection h with h; subst h
        show ((tries + 1 : Nat) : Int) ≤ mt
        push_cast
        omega
      · rw [if_neg h1] at h
        by_cases h2 : checkRetry e = false
        · rw [if_pos h2] at h; injection h with h; subst h
          show ((tries + 1 : Nat) : Int) ≤ mt
          push_cast
          omega
        · rw [if_neg h2] at h
          cases hr : retryAux f mt n (start * 2) (tries + 1) with
          | none => simp only [hr] at h; exact Option.noConfusion h
          | some r' =>
            simp only [hr] at h
            injection h with h
            subst h
            have hlt' : ((tries + 1 : Nat) : Int) < mt := by push_cast; omega
            simpa using ih (start * 2) (tries + 1) r' hlt' hr

theorem retryAux_result (f : Nat → Option GoError) (mt : Int) :
    ∀ fuel start tries r, retryAux f mt fuel start tries = some r →
      r.result = f (r.calls - 1) := by
  intro fuel
  induction fuel with
  | zero => intro start tries r h; exact absurd h (by simp [retryAux_zero])
  | succ n ih =>
    intro start tries r h
    cases hf : f tries with
    | none =>
      rw [retryAux_succ_none f mt n start tries hf] at h
      injection h with h
      subst h
      simp [hf]
    | some e =>
      rw [retryAux_succ_some f mt n start tries e hf] at h
      by_cases h1 : ((tries : Int) + 1) = mt
      · rw [if_pos h1] at h; injection h with h; subst h; simp [hf]
      · rw [if_neg h1] at h
        by_cases h2 : checkRetry e = false
        · rw [if_pos h2] at h; injection h with h; subst h; simp [hf]
        · rw [if_neg h2] at h
          cases hr : retryAux f mt n (start * 2) (tries + 1) with
          | none => simp only [hr] at h; exact Option.noConfusion h
          | some r' =>
            simp only [hr] at h
            injection h with h
            subst h
            simpa using ih (start * 2) (tries + 1) r' hr

theorem retryAux_sleeps (f : Nat → Option GoError) (mt : Int) :
    ∀ fuel start tries r, retryAux f mt fuel start tries = some r →
      r.sleeps = (List.range (r.calls - 1 - tries)).map fun i => 2 ^ i * start := by
  intro fuel
  induction fuel with
  | zero => intro start tries r h; exact absurd h (by simp [retryAux_zero])
  | succ n ih =>
    intro start tries r h
    cases hf : f tries with
    | none =>
      rw [retryAux_succ_none f mt n start tries hf] at h
      injection h with h
      subst h
      simp
    | some e =>
      rw [retryAux_succ_some f mt n start tries e hf] at h
      by_cases h1 : ((tries : Int) + 1) = mt
      · rw [if_pos h1] at h; injection h with h; subst h; simp
      · rw [if_neg h1] at h
        by_cases h2 : checkRetry e = false
        · rw [if_pos h2] at h; injection h with h; subst h; simp
        · rw [if_neg h2] at h
          cases hr : retryAux f mt n (start * 2) (tries + 1) with
          | none => simp only [hr] at h; exact Option.noConfusion h
          | some r' =>
            simp only [hr] at h
            injection h with h
            subst h
            have hcalls : tries + 1 < r'.calls := retryAux_calls_gt f mt n _ _ _ hr
            have hs := ih _ _ _ hr
            have harith : r'.calls - 1 - tries = (r'.calls - 1 - (tries + 1)) + 1 := by omega
            show start :: r'.sleeps =
              (List.range (r'.calls - 1 - tries)).map fun i => 2 ^ i * start
            rw [hs, harith, List.range_succ_eq_map]
            simp only [List.map_cons, List.map_map, pow_zero, one_mul]
            congr 1
            apply List.map_congr_left
            intro i _
            simp only [Function.comp_apply, pow_succ]
            ring

theorem retryAux_unbounded (f : Nat → Option GoError) (mt : Int)
    (hm : mt ≤ 0) (hf : ∀ i, ∃ e, f i = some e ∧ checkRetry e = true) :
    ∀ fuel start tries, retryAux f mt fuel start tries = none := by
  intro fuel
  induction fuel with
  | zero => intro start tries; rfl
  | succ n ih =>
    intro start tries
    obtain ⟨e, he, hc⟩ := hf tries
    rw [retryAux_succ_some f mt n start tries e he]
    rw [if_neg (by omega : ¬ ((tries : Int) + 1) = mt), if_neg (by simp [hc])]
    rw [ih (start * 2) (tries + 1)]

/-- C5: for a retry-wrapped operation, `retry(d, maxTries, f)` makes at most
`maxTries` calls when `maxTries ≥ 1`; `maxTries = 1` means exactly one call and
no sleep; `maxTries ≤ 0` with persistently retryable failures retries without
bound (no amount of fuel completes); the sleeps of a completed run are
`d, 2d, 4d, ...` (doubling); the returned error is the final attempt's outcome;
and an operation failing retryably twice then succeeding completes with three
calls and sleeps exactly `[d, 2d]` whenever `maxTries ≥ 3`. -/
theorem c5_retry_behavior :
    (∀ f d mt fuel r, 1 ≤ mt → retryRun d mt f fuel = some r → (r.calls : Int) ≤ mt)
    ∧ (∀ f d fuel, retryRun d 1 f (fuel + 1) =
        some { calls := 1, sleeps := [], result := f 0 })
    ∧ (∀ f d mt fuel, mt ≤ 0 → (∀ i, ∃ e, f i = some e ∧ checkRetry e = true) →
        retryRun d mt f fuel = none)
    ∧ (∀ f d mt fuel r, retryRun d mt f fuel = some r →
        r.sleeps = (List.range (r.calls - 1)).map fun i => 2 ^ i * d)
    ∧ (∀ f d mt fuel r, retryRun d mt f fuel = some r → r.result = f (r.calls - 1))
    ∧ (∀ d mt fuel e, checkRetry e = true → 3 ≤ mt →
        retryRun d mt (fun i => if i < 2 then some e else none) (fuel + 3) =
          some { calls := 3, sleeps := [d, 2 * d], result := none }) := by
  refine ⟨?_, ?_, ?_, ?_, ?_, ?_⟩
  · intro f d mt fuel r h1 h
    exact retryAux_calls_le f mt fuel d 0 r (by omega) h
  · intro f d fuel
    rw [retryRun]
    cases hf : f 0 with
    | none => rw [retryAux_succ_none f 1 fuel d 0 hf]
    | some e =>
      rw [retryAux_succ_some f 1 fuel d 0 e hf, if_pos (by norm_num)]
  · intro f d mt fuel hm hf
    exact retryAux_unbounded f mt hm hf fuel d 0
  · intro f d mt fuel r h
    simpa using retryAux_sleeps f mt fuel d 0 r h
  · intro f d mt fuel r h
    exact retryAux_result f mt fuel d 0 r h
  · intro d mt fuel e hc h3
    have hF0 : (fun i => if i < 2 then some e else none) 0 = some e := by norm_num
    have hF1 : (fun i => if i < 2 then some e else none) 1 = some e := by norm_num
    have hF2 : (fun i => if i < 2 then some e else none) 2 = none := by norm_num
    have s2 : retryAux (fun i => if i < 2 then some e else none) mt (fuel + 1) (d * 2 * 2) 2 =
        some { calls := 3, sleeps := [], result := none } :=
      retryAux_succ_none _ mt fuel (d * 2 * 2) 2 hF2
    have s1 : retryAux (fun i => if i < 2 then some e else none) mt (fuel + 1 + 1) (d * 2) 1 =
        some { calls := 3, sleeps := [d * 2], result := none } := by
      rw [retryAux_succ_some _ mt (fuel + 1) (d * 2) 1 e hF1]
      rw [if_neg (by push_cast; omega : ¬ ((1 : Nat) : Int) + 1 = mt), if_neg (by simp [hc])]
      simp only [s2]
    have s0 : retryAux (fun i => if i < 2 then some e else none) mt (fuel + 1 + 1 + 1) d 0 =
        some { calls := 3, sleeps := [d, d * 2], result := none } := by
      rw [retryAux_succ_some _ mt (fuel + 1 + 1) d 0 e hF0]
      rw [if_neg (by push_cast; omega : ¬ ((0 : Nat) : Int) + 1 = mt), if_neg (by simp [hc])]
      simp only [s1]
    rw [retryRun, show fuel + 3 = fuel + 1 + 1 + 1 from rfl, s0]
    have : d * 2 = 2 * d := Nat.mul_comm d 2
    rw [this]

/-- C5 witness: an operation that fails twice with a rate-limited 403 and
succeeds on the third attempt, with initial delay 7 and `maxTries = 3`:
three calls, sleeps 7 then 14, success. -/
theorem c5_witness :
    retryRun 7 3 (fun i => if i < 2 then some (GoError.api 403 ["rateLimitExceeded"]) else none)
        3 = some { calls := 3, sleeps := [7, 14], result := none } := by
  have h := c5_retry_behavior.2.2.2.2.2 7 3 0 (GoError.api 403 ["rateLimitExceeded"])
    (by decide) (by decide)
  simpa using h

/-- C4 counterexample: a non-API (network-level) error is classified
non-retryable by `checkRetry` — although the claim calls every classification
outside the explicit permanent list retryable (`specRetryable`, the spec's
words) — and `retry` consequently returns it after a single call with no
sleep, even with `maxTries = 5` and plenty of fuel. -/
theorem c4_counterexample :
    checkRetry GoError.other = false ∧ specRetryable GoError.other = true ∧
      retryRun 7 5 (fun _ => some GoError.other) 9 =
        some { calls := 1, sleeps := [], result := some GoError.other } := by
  refine ⟨rfl, rfl, ?_⟩
  decide

/-- C4 (amended): `checkRetry` retries exactly the **API** errors whose status
code is outside {400, 401, 404, 501}, where a 403 additionally requires the
rate-limit reason; an error classified non-retryable — which includes every
non-API network-level failure — is returned immediately after one call with no
sleep, while a retryable first failure leads to a second attempt after
sleeping the initial delay. -/
theorem c4_amended :
    (∀ e, checkRetry e = true ↔
        ∃ code reasons, e = GoError.api code reasons ∧
          ¬ (code = 400 ∨ code = 401 ∨ code = 404 ∨ code = 501) ∧
          (code = 403 → ErrReasonRateLimitExceeded ∈ reasons))
    ∧ (∀ (f : Nat → Option GoError) d mt fuel e, f 0 = some e → checkRetry e = false →
        retryRun d mt f (fuel + 1) = some { calls := 1, sleeps := [], result := some e })
    ∧ (∀ (f : Nat → Option GoError) d mt fuel e, f 0 = some e → checkRetry e = true →
        (1 : Int) ≠ mt →
        retryRun d mt f (fuel + 1) =
          match retryAux f mt fuel (d * 2) 1 with
          | none => none
          | some r => some { r with sleeps := d :: r.sleeps }) := by
  refine ⟨?_, ?_, ?_⟩
  · intro e
    cases e with
    | api code reasons =>
      constructor
      · intro h
        refine ⟨code, reasons, rfl, ?_, ?_⟩
        · intro hc
          simp only [checkRetry] at h
          rw [if_pos hc] at h
          exact Bool.noConfusion h
        · intro hc
          subst hc
          simp [checkRetry] at h
          exact h
      · rintro ⟨code2, reasons2, heq, h1, h2⟩
        injection heq with hc hr
        subst hc; subst hr
        by_cases hc : code = 403
        · subst hc
          have hm := h2 rfl
          simp [checkRetry, hm]
        · simp [checkRetry, h1, hc]
    | other =>
      constructor
      · intro h
        simp [checkRetry] at h
      · rintro ⟨code, reasons, heq, -, -⟩
        exact GoError.noConfusion heq
  · intro f d mt fuel e hf hc
    rw [retryRun, retryAux_succ_some f mt fuel d 0 e hf]
    by_cases h1 : ((0 : Nat) : Int) + 1 = mt
    · rw [if_pos h1]
    · rw [if_neg h1, if_pos hc]
  · intro f d mt fuel e hf hc hne
    rw [retryRun, retryAux_succ_some f mt fuel d 0 e hf]
    rw [if_neg (by push_cast; omega : ¬ ((0 : Nat) : Int) + 1 = mt), if_neg (by simp [hc])]

/-! ## The C6 and C10 claims -/

/-- C6: `DownloadFile` skips with no error (`skipMatched`, i.e. `(false, nil)`)
exactly when either the mime type is export-convertible, the remote modified
time is non-empty and parses, and a local file exists at the path whose mtime
is at or after the remote one; or the mime type is neither export-convertible
nor skip-listed/SDK-typed and a local file exists whose MD5 digest equals the
remote checksum.  In every other case the file is transferred
(`downloaded = true`), except for skip-listed/SDK types, which yield
`(false, ErrNoExportableFormat)`. -/
theorem c6_skip_characterization (fs : FS) (f : GFile) (path : String) :
    (DownloadFile fs f path = DFResult.skipMatched ↔
      (¬ (f.mimeType ∈ SkipTypes ∨ hasPre f.mimeType FileTypeSDKPre = true) ∧
        (lookupA ExportTypes f.mimeType).isSome ∧ f.modifiedTime ≠ "" ∧
        ∃ t, parseRFC3339 f.modifiedTime = some t ∧ mtimeVerify fs path t = true)
      ∨ (¬ (f.mimeType ∈ SkipTypes ∨ hasPre f.mimeType FileTypeSDKPre = true) ∧
          lookupA ExportTypes f.mimeType = none ∧
          md5Verify fs path f.md5Checksum = true))
    ∧ ((DownloadFile fs f path).downloaded = true ↔
        ¬ (f.mimeType ∈ SkipTypes ∨ hasPre f.mimeType FileTypeSDKPre = true) ∧
          DownloadFile fs f path ≠ DFResult.skipMatched) := by
  by_cases hskip : f.mimeType ∈ SkipTypes ∨ hasPre f.mimeType FileTypeSDKPre = true
  · constructor <;> simp [DownloadFile, hskip, DFResult.downloaded]
  · cases hexp : lookupA ExportTypes f.mimeType with
    | some typ =>
      by_cases hmt : f.modifiedTime = ""
      · constructor <;> simp [DownloadFile, hskip, hexp, hmt, DFResult.downloaded]
      · cases hp : parseRFC3339 f.modifiedTime with
        | none =>
          constructor <;> simp [DownloadFile, hskip, hexp, hmt, hp, DFResult.downloaded]
        | some t =>
          by_cases hv : mtimeVerify fs path t = true
          · constructor <;> simp [DownloadFile, hskip, hexp, hmt, hp, hv, DFResult.downloaded]
          · constructor <;> simp [DownloadFile, hskip, hexp, hmt, hp, hv, DFResult.downloaded]
    | none =>
      by_cases hm : md5Verify fs path f.md5Checksum = true
      · constructor <;> simp [DownloadFile, hskip, hexp, hm, DFResult.downloaded]
      · constructor <;> simp [DownloadFile, hskip, hexp, hm, DFResult.downloaded]

/-- C10: with a non-empty `ModifiedTime` that is not valid RFC3339, `Download`
and `Export` both return an error, but only after the local file at the target
path has been created (truncating any previous file) and the full body
written: the file's content is the fetched body and its mtime is the write
instant `now`, not the remote time.  With an empty `ModifiedTime` the same
write succeeds silently, equally without setting the mtime from the remote. -/
theorem c10_write_error (fs : FS) (now : Nat) (body path : String) (f : GFile) :
    (f.modifiedTime ≠ "" → parseRFC3339 f.modifiedTime = none →
      Download fs now body f path =
        (upsertA fs path { content := body, mtime := now },
          some "could not parse modified time")
      ∧ Export fs now body f path =
        (upsertA fs path { content := body, mtime := now },
          some "could not parse modified time")
      ∧ lookupA (Download fs now body f path).1 path =
          some { content := body, mtime := now })
    ∧ (f.modifiedTime = "" →
        Download fs now body f path =
          (upsertA fs path { content := body, mtime := now }, none)
        ∧ lookupA (Download fs now body f path).1 path =
            some { content := body, mtime := now }) := by
  constructor
  · intro h1 h2
    have hD : Download fs now body f path =
        (upsertA fs path { content := body, mtime := now },
          some "could not parse modified time") := by
      simp only [Download, writeBody]
      rw [if_neg h1, h2]
    exact ⟨hD, hD, by rw [hD]; exact lookupA_upsertA_self fs path _⟩
  · intro h1
    have hD : Download fs now body f path =
        (upsertA fs path { content := body, mtime := now }, none) := by
      simp only [Download, writeBody]
      rw [if_pos h1]
    exact ⟨hD, by rw [hD]; exact lookupA_upsertA_self fs path _⟩

/-! ## String and `takeWhile` helpers -/

theorem strData_append (a b : String) : (a ++ b).data = a.data ++ b.data := rfl

theorem mem_takeWhile_pred {α : Type} (p : α → Bool) :
    ∀ (l : List α) (a : α), a ∈ l.takeWhile p → p a = true := by
  intro l
  induction l with
  | nil => simp
  | cons x t ih =>
    intro a ha
    rw [List.takeWhile_cons] at ha
    by_cases hx : p x = true
    · rw [if_pos hx] at ha
      rcases List.mem_cons.mp ha with rfl | h
      · exact hx
      · exact ih a h
    · rw [if_neg hx] at ha
      simp at ha

theorem mem_takeWhile_mem {α : Type} (p : α → Bool) :
    ∀ (l : List α) (a : α), a ∈ l.takeWhile p → a ∈ l := by
  intro l
  induction l with
  | nil => simp
  | cons x t ih =>
    intro a ha
    rw [List.takeWhile_cons] at ha
    by_cases hx : p x = true
    · rw [if_pos hx] at ha
      rcases List.mem_cons.mp ha with rfl | h
      · exact List.mem_cons_self _ _
      · exact List.mem_cons_of_mem _ (ih a h)
    · rw [if_neg hx] at ha
      simp at ha

theorem takeWhile_append_all {α : Type} (p : α → Bool) :
    ∀ (l₁ l₂ : List α), (∀ x ∈ l₁, p x = true) →
      (l₁ ++ l₂).takeWhile p = l₁ ++ l₂.takeWhile p := by
  intro l₁
  induction l₁ with
  | nil => simp
  | cons x t ih =>
    intro l₂ h
    have hx : p x = true := h x (List.mem_cons_self _ _)
    simp only [List.cons_append, List.takeWhile_cons, hx, if_true]
    rw [ih l₂ fun y hy => h y (List.mem_cons_of_mem _ hy)]

theorem length_takeWhile_le {α : Type} (p : α → Bool) :
    ∀ (l : List α), (l.takeWhile p).length ≤ l.length := by
  intro l
  induction l with
  | nil => simp
  | cons x t ih =>
    rw [List.takeWhile_cons]
    by_cases hx : p x = true
    · rw [if_pos hx]
      simpa using ih
    · rw [if_neg hx]
      simp

theorem length_takeWhile_lt_of_mem {α : Type} (p : α → Bool) :
    ∀ (l : List α) (a : α), a ∈ l → p a = false → (l.takeWhile p).length < l.length := by
  intro l
  induction l with
  | nil => simp
  | cons x t ih =>
    intro a ha hpa
    rw [List.takeWhile_cons]
    rcases List.mem_cons.mp ha with rfl | h
    · rw [if_neg (by simp [hpa])]
      simp
    · by_cases hx : p x = true
      · rw [if_pos hx]
        simpa using ih a h hpa
      · rw [if_neg hx]
        simp

/-! ## Termination and specification of the `checkpath` loop -/

theorem uniquifyGo_succ (fuel : Nat) (files : List (String × Nat)) (p : String) :
    uniquifyGo (fuel + 1) files p =
      (if 1 < valAt (bump files p) p then
        uniquifyGo fuel (bump files p) (renamePath p (valAt (bump files p) p))
       else some (bump files p, p)) := rfl

theorem valAt_bump (files : List (String × Nat)) (p q : String) :
    valAt (bump files p) q = if q = p then valAt files p + 1 else valAt files q := by
  by_cases hp : (lookupA files p).isSome
  · obtain ⟨v, hv⟩ := Option.isSome_iff_exists.mp hp
    rw [bump, if_pos hp]
    by_cases hq : q = p
    · subst hq
      simp [valAt, lookupA_updateA, hv]
    · simp [valAt, lookupA_updateA, hq]
  · simp only [Option.not_isSome_iff_eq_none] at hp
    rw [bump, if_neg (by simp [hp])]
    by_cases hq : q = p
    · subst hq
      simp [valAt, lookupA_append, hp, lookupA]
    · simp only [valAt, lookupA_append]
      cases hl : lookupA files q with
      | some v => simp [hq]
      | none => simp [lookupA, hq]

theorem valAt_bump_le (files : List (String × Nat)) (p q : String) :
    valAt files q ≤ valAt (bump files p) q := by
  rw [valAt_bump]
  by_cases hq : q = p <;> simp [hq]

/-- `pathExt` never exceeds its argument's length. -/
theorem pathExt_length_le (s : String) : (pathExt s).data.length ≤ s.data.length := by
  show ((extRev s.data.reverse).reverse).length ≤ s.data.length
  rw [List.length_reverse]
  rw [show s.data.length = s.data.reverse.length from (List.length_reverse _).symm]
  generalize s.data.reverse = l
  rw [extRev]
  by_cases hd : '.' ∈ l.takeWhile fun c => decide (c ≠ '/')
  · rw [if_pos hd]
    rw [List.length_append]
    have h1 : ((l.takeWhile fun c => decide (c ≠ '/')).takeWhile
        fun c => decide (c ≠ '.')).length < (l.takeWhile fun c => decide (c ≠ '/')).length :=
      length_takeWhile_lt_of_mem _ _ '.' hd (by decide)
    have h2 := length_takeWhile_le (fun c => decide (c ≠ '/')) l
    simpa using Nat.le_trans (Nat.succ_le_of_lt h1) h2
  · rw [if_neg hd]
    simp

theorem strData_mk (l : List Char) : (String.mk l).data = l := rfl

/-- Each collision rename strictly lengthens the candidate path. -/
theorem renamePath_length (p : String) (n : Nat) :
    p.data.length < (renamePath p n).data.length := by
  have hle : (pathExt p).data.length ≤ p.data.length := pathExt_length_le p
  have hcalc : (renamePath p n).data.length =
      (p.data.length - (pathExt p).data.length) + 1 + (toString n).data.length +
        (pathExt p).data.length := by
    show ((⟨p.data.take (p.data.length - (pathExt p).data.length)⟩ : String) ++ "_" ++
        toString n ++ pathExt p).data.length = _
    rw [strData_append, strData_append, strData_append, strData_mk]
    rw [List.length_append, List.length_append, List.length_append, List.length_take]
    rw [Nat.min_eq_left (Nat.sub_le _ _)]
    have h1 : ("_" : String).data.length = 1 := rfl
    rw [h1]
  rw [hcalc]
  omega

theorem uMeasure_updateA (key : String) (g : Nat → Nat) (l : List (String × Nat))
    (q : String) : uMeasure (updateA key g l) q = uMeasure l q := by
  induction l with
  | nil => rfl
  | cons kv rest ih =>
    obtain ⟨k0, v0⟩ := kv
    by_cases h : key = k0
    · simp only [updateA, if_pos h, uMeasure, List.filter_cons]
      by_cases hq : decide (q.data.length ≤ k0.data.length) = true
      · rw [if_pos hq, if_pos hq]
        simp
      · rw [if_neg hq, if_neg hq]
    · simp only [updateA, if_neg h, uMeasure, List.filter_cons]
      have ih2 : (List.filter (fun kv => decide (q.data.length ≤ kv.1.data.length))
            (updateA key g rest)).length =
          (List.filter (fun kv => decide (q.data.length ≤ kv.1.data.length)) rest).length := ih
      by_cases hq : decide (q.data.length ≤ k0.data.length) = true
      · rw [if_pos hq, if_pos hq]
        simpa using ih2
      · rw [if_neg hq, if_neg hq]
        exact ih2

/-- The decreasing measure of the `checkpath` loop: when the loop continues,
the renamed candidate was already recorded and is strictly longer, so the count
of recorded paths at least as long as the candidate strictly drops. -/
theorem uMeasure_bump_lt (files : List (String × Nat)) (p : String)
    (hp : (lookupA files p).isSome) (n : Nat) :
    uMeasure (bump files p) (renamePath p n) < uMeasure files p := by
  obtain ⟨v, hv⟩ := Option.isSome_iff_exists.mp hp
  have hkey : uMeasure (bump files p) (renamePath p n) =
      (files.filter fun kv =>
        decide ((renamePath p n).data.length ≤ kv.1.data.length)).length := by
    rw [bump, if_pos hp, uMeasure_updateA, uMeasure]
  rw [hkey, uMeasure]
  have hlen := renamePath_length p n
  apply filter_length_lt _ _ files
  · intro kv _ hq
    simp only [decide_eq_true_eq] at hq ⊢
    omega
  · exact lookupA_mem files p v hv
  · simp
  · simp only [decide_eq_false_iff_not]
    omega

/-- The `checkpath` loop terminates: fuel exceeding the measure completes. -/
theorem uniquifyGo_total : ∀ (fuel : Nat) (files : List (String × Nat)) (p : String),
    uMeasure files p < fuel → (uniquifyGo fuel files p).isSome := by
  intro fuel
  induction fuel with
  | zero => intro files p h; omega
  | succ n ih =>
    intro files p h
    rw [uniquifyGo_succ]
    by_cases hlt : 1 < valAt (bump files p) p
    · rw [if_pos hlt]
      have hpres : (lookupA files p).isSome := by
        rcases hl : lookupA files p with - | v
        · rw [valAt_bump] at hlt
          simp [valAt, hl] at hlt
        · simp
      have hdec := uMeasure_bump_lt files p hpres (valAt (bump files p) p)
      exact ih _ _ (by omega)
    · rw [if_neg hlt]
      simp

theorem uniquify_eq (files : List (String × Nat)) (p : String) :
    uniquifyGo (uMeasure files p + 1) files p = some (uniquify files p) := by
  have h := uniquifyGo_total (uMeasure files p + 1) files p (Nat.lt_succ_self _)
  obtain ⟨r, hr⟩ := Option.isSome_iff_exists.mp h
  rw [uniquify, hr]
  rfl

/-- Specification of a completed `checkpath` loop: counters never decrease, the
final path's counter was zero before the loop ran, and is exactly one after
(it was emitted on its first touch). -/
theorem uniquifyGo_spec : ∀ (fuel : Nat) (files : List (String × Nat)) (p : String)
    (r : List (String × Nat) × String), uniquifyGo fuel files p = some r →
    (∀ q, valAt files q ≤ valAt r.1 q) ∧ valAt files r.2 = 0 ∧ valAt r.1 r.2 = 1 := by
  intro fuel
  induction fuel with
  | zero => intro files p r h; exact absurd h (by simp [uniquifyGo])
  | succ n ih =>
    intro files p r h
    rw [uniquifyGo_succ] at h
    by_cases hlt : 1 < valAt (bump files p) p
    · rw [if_pos hlt] at h
      obtain ⟨hmono, hzero, hone⟩ := ih _ _ _ h
      refine ⟨fun q => Nat.le_trans (valAt_bump_le files p q) (hmono q), ?_, hone⟩
      have := valAt_bump_le files p r.2
      omega
    · rw [if_neg hlt] at h
      injection h with h
      subst h
      have hb := valAt_bump files p p
      rw [if_pos rfl] at hb
      refine ⟨fun q => valAt_bump_le files p q, ?_, ?_⟩ <;> simp only [] <;> omega

/-! ## The C3 claim: job-path uniqueness -/

theorem downloadVisit_inv (mkf : String → Bool) (path : String) (f : Node) (s : DTState)
    (h : dtInv s) : dtInv (downloadVisit mkf path f s).1 := by
  obtain ⟨hnd, hcnt⟩ := h
  by_cases hf : f.isFolder = true
  · by_cases hm : mkf path = true
    · have hv : (downloadVisit mkf path f s).1 = s := by simp [downloadVisit, hf, hm]
      rw [hv]
      exact ⟨hnd, hcnt⟩
    · have hv : (downloadVisit mkf path f s).1 = { s with dirs := s.dirs ++ [path] } := by
        simp [downloadVisit, hf, hm]
      rw [hv]
      exact ⟨hnd, hcnt⟩
  · by_cases hs : f.file.mimeType = FileTypeShortcut
    · have hv : (downloadVisit mkf path f s).1 = s := by simp [downloadVisit, hf, hs]
      rw [hv]
      exact ⟨hnd, hcnt⟩
    · set p1 := match lookupA ExportExtensions f.file.mimeType with
        | some ext => path ++ ext
        | none => path with hp1
      have hvisit : (downloadVisit mkf path f s).1 =
          { s with files := (uniquify s.files p1).1,
                   jobs := s.jobs ++ [((uniquify s.files p1).2, f)] } := by
        simp only [downloadVisit, hf, hs]
        simp only [Bool.false_eq_true, if_false, hp1]
      rw [hvisit]
      obtain ⟨hmono, hzero, hone⟩ :=
        uniquifyGo_spec _ s.files p1 (uniquify s.files p1) (uniquify_eq s.files p1)
      constructor
      · simp only [List.map_append, List.map_cons, List.map_nil]
        rw [List.nodup_append]
        refine ⟨hnd, List.nodup_singleton _, ?_⟩
        intro a ha hb
        simp only [List.mem_singleton] at hb
        subst hb
        have := hcnt _ ha
        omega
      · intro q hq
        simp only [List.map_append, List.map_cons, List.map_nil, List.mem_append,
          List.mem_singleton] at hq
        show 1 ≤ valAt (uniquify s.files p1).1 q
        rcases hq with hq | rfl
        · exact Nat.le_trans (hcnt q hq) (hmono q)
        · omega

/-- The walk preserves the producer invariant, whatever state it stops in. -/
theorem walkAux_dtInv (m : NodeMap) (mkf : String → Bool) :
    ∀ (fuel : Nat) (q : List WalkEntry) (s0 s : DTState) (e : Option String),
      dtInv s0 → walkAux m (downloadVisit mkf) fuel q s0 = some (s, e) → dtInv s := by
  intro fuel
  induction fuel with
  | zero =>
    intro q s0 s e h0 h
    cases q with
    | nil =>
      simp only [walkAux] at h
      obtain ⟨rfl, -⟩ := Prod.mk.inj (Option.some.inj h).symm
      exact h0
    | cons a t => simp [walkAux] at h
  | succ n ih =>
    intro q s0 s e h0 h
    cases q with
    | nil =>
      simp only [walkAux] at h
      obtain ⟨rfl, -⟩ := Prod.mk.inj (Option.some.inj h).symm
      exact h0
    | cons a t =>
      simp only [walkAux] at h
      by_cases hdrop : a.node.id ∈ a.parents
      · rw [if_pos hdrop] at h
        exact ih t s0 s e h0 h
      · rw [if_neg hdrop] at h
        have hinv := downloadVisit_inv mkf a.path (resolveShortcut m a.node) s0 h0
        cases hv : (downloadVisit mkf a.path (resolveShortcut m a.node) s0).2 with
        | some er =>
          simp only [hv] at h
          obtain ⟨rfl, -⟩ := Prod.mk.inj (Option.some.inj h).symm
          exact hinv
        | none =>
          simp only [hv] at h
          exact ih _ _ s e hinv h

/-- C3: within one `DownloadTree` run the final output paths of all jobs sent
to the worker channel are pairwise distinct — in whatever state the producer
stops, including an mkdir error — and on the two-identically-named-siblings
scenario the second job resolves to `Doc_2` (never `Doc_1`). -/
theorem c3_unique_paths :
    (∀ m root mkf fuel s e, DownloadTree m root mkf fuel = some (s, e) →
        (s.jobs.map Prod.fst).Nodup)
    ∧ (DownloadTree c3Tree.nodes c3Tree.root (fun _ => false) 50).map
        (fun r => (r.1.jobs.map Prod.fst, r.2)) =
      some (["My Drive/Doc", "My Drive/Doc_2"], none) := by
  constructor
  · intro m root mkf fuel s e h
    have hinit : dtInv initDT := ⟨List.nodup_nil, by simp [initDT]⟩
    rw [DownloadTree] at h
    cases hw : walkRun m root (downloadVisit mkf) fuel initDT with
    | none => rw [hw] at h; exact Option.noConfusion h
    | some se =>
      obtain ⟨s', e'⟩ := se
      have hs : s' = s := by
        rw [hw] at h
        cases e' with
        | none => exact (Prod.mk.inj (Option.some.inj h)).1
        | some er => exact (Prod.mk.inj (Option.some.inj h)).1
      subst hs
      exact (walkAux_dtInv m mkf fuel [startEntry root] initDT s' e' hinit hw).1
  · decide

/-- C3 witness: the concrete two-sibling scenario completes, and the theorem
yields distinct job paths for it. -/
theorem c3_witness :
    ∃ s e, DownloadTree c3Tree.nodes c3Tree.root (fun _ => false) 50 = some (s, e) ∧
      (s.jobs.map Prod.fst).Nodup := by
  refine ⟨_, _, rfl, ?_⟩
  exact c3_unique_paths.1 c3Tree.nodes c3Tree.root (fun _ => false) 50 _ _ rfl

/-! ## The C7 claim: worker errors and the `DownloadTree` error contract -/

/-- A `downloadVisit` error is always a directory-creation failure for the
visited path. -/
theorem downloadVisit_error (mkf : String → Bool) (path : String) (f : Node) (s : DTState)
    (e : String) (h : (downloadVisit mkf path f s).2 = some e) :
    mkf path = true ∧ e = path ++ ": could not create directory" := by
  by_cases hf : f.isFolder = true
  · by_cases hm : mkf path = true
    · simp [downloadVisit, hf, hm] at h
      exact ⟨hm, h.symm⟩
    · simp [downloadVisit, hf, hm] at h
  · by_cases hs : f.file.mimeType = FileTypeShortcut
    · simp [downloadVisit, hf, hs] at h
    · simp [downloadVisit, hf, hs] at h

/-- Any error carried out of a `downloadVisit` walk is the mkdir failure
message of some path the oracle rejected. -/
theorem walkAux_download_error (m : NodeMap) (mkf : String → Bool) :
    ∀ fuel q s0 s e, walkAux m (downloadVisit mkf) fuel q s0 = some (s, some e) →
      ∃ p, mkf p = true ∧ e = p ++ ": could not create directory" := by
  intro fuel
  induction fuel with
  | zero =>
    intro q s0 s e h
    cases q with
    | nil => simp [walkAux] at h
    | cons a t => simp [walkAux] at h
  | succ n ih =>
    intro q s0 s e h
    cases q with
    | nil => simp [walkAux] at h
    | cons a t =>
      simp only [walkAux] at h
      by_cases hdrop : a.node.id ∈ a.parents
      · rw [if_pos hdrop] at h
        exact ih t s0 s e h
      · rw [if_neg hdrop] at h
        cases hv : (downloadVisit mkf a.path (resolveShortcut m a.node) s0).2 with
        | some er =>
          simp only [hv] at h
          obtain ⟨-, he⟩ := Prod.mk.injEq .. ▸ (Option.some.injEq .. ▸ h)
          have he2 : er = e := by
            have := (Prod.mk.inj (Option.some.inj h)).2
            exact Option.some.inj this
          subst he2
          obtain ⟨hm, hmsg⟩ := downloadVisit_error mkf a.path (resolveShortcut m a.node) s0 er hv
          exact ⟨a.path, hm, hmsg⟩
        | none =>
          simp only [hv] at h
          exact ih _ _ s e h

/-- C7: a worker never returns an error, whatever the per-job outcomes (it logs
and continues); `DownloadTree` returns exactly the walk's result, its error
wrapped — so it errors iff the producer-side walk errors — and any such walk
error is a failed directory creation. -/
theorem c7_worker_errors :
    (∀ outcome jobs, (downloader outcome jobs).2 = none)
    ∧ (∀ m root mkf fuel s e, walkRun m root (downloadVisit mkf) fuel initDT = some (s, e) →
        DownloadTree m root mkf fuel =
          some (s, e.map fun er => "could not finish walking tree: " ++ er))
    ∧ (∀ m root mkf fuel s e,
        walkRun m root (downloadVisit mkf) fuel initDT = some (s, some e) →
        ∃ p, mkf p = true ∧ e = p ++ ": could not create directory") := by
  refine ⟨?_, ?_, ?_⟩
  · intro outcome jobs
    induction jobs with
    | nil => rfl
    | cons j rest ih =>
      obtain ⟨p, nd⟩ := j
      simpa [downloader] using ih
  · intro m root mkf fuel s e h
    cases e with
    | none => simp [DownloadTree, h]
    | some er => simp [DownloadTree, h]
  · intro m root mkf fuel s e h
    exact walkAux_download_error m mkf fuel [startEntry root] initDT s e h

/-- C7 witness: a worker fed a failing job still returns no error, and on the
C8 tree with an oracle that fails to create the root directory, `DownloadTree`
returns exactly the walk's mkdir error, wrapped. -/
theorem c7_witness :
    (downloader (fun _ => (false, some "boom")) [("p", rootNode "r")]).2 = none ∧
    DownloadTree c8Tree.nodes c8Tree.root (fun p => decide (p = "My Drive")) 50 =
      some (initDT,
        some "could not finish walking tree: My Drive: could not create directory") ∧
    ∃ p, (fun q => decide (q = "My Drive")) p = true ∧
      "My Drive: could not create directory" = p ++ ": could not create directory" := by
  refine ⟨c7_worker_errors.1 _ _, ?_, ?_⟩
  · have h := c7_worker_errors.2.1 c8Tree.nodes c8Tree.root
      (fun p => decide (p = "My Drive")) 50 initDT
      (some "My Drive: could not create directory") (by decide)
    simpa using h
  · exact c7_worker_errors.2.2 c8Tree.nodes c8Tree.root
      (fun p => decide (p = "My Drive")) 50 initDT
      "My Drive: could not create directory" (by decide)

/-! ## The C2 claim: non-termination of `Walk` on a shortcut to an ancestor -/

/-- The repeating configuration of the `c2Tree` walk: a queue holding the
shortcut entry with an ancestor set that misses the shortcut's own id never
finishes — each step re-enqueues the same entry (the resolved target's id is
already in the set, so the set does not grow). -/
theorem c2_loop : ∀ fuel (p : String) (ps : List String), "s" ∉ ps →
    walkAux c2Tree.nodes unitVisit fuel [{ node := c2S, path := p, parents := ps }] () =
      none := by
  intro fuel
  induction fuel with
  | zero => intro p ps _; rfl
  | succ n ih =>
    intro p ps h
    rw [walkAux]
    rw [if_neg (show ¬ c2S.id ∈ ps from h)]
    exact ih (joinPath p (sanitize c2S.name)) (insertId "a" ps) (by
      rw [mem_insertId]
      rintro (h1 | h2)
      · exact absurd h1 (by decide)
      · exact h h2)

/-- C2 (code bug): on the tree built from a shortcut that is a direct child of
its own resolved target — a shortcut to the drive root placed in the root —
`Walk` never terminates: the ancestor check tests the shortcut's own id before
resolution, and each step re-enqueues the shortcut entry with an unchanged
ancestor set, so no fuel completes the walk (the source loops forever). -/
theorem c2_nontermination :
    ¬ ∃ fuel r, walkRun c2Tree.nodes c2Tree.root unitVisit fuel () = some r := by
  rintro ⟨fuel, r, h⟩
  have hall : ∀ n, walkRun c2Tree.nodes c2Tree.root unitVisit n () = none := by
    intro n
    cases n with
    | zero => rfl
    | succ k =>
      rw [walkRun, walkAux]
      rw [if_neg (show ¬ (startEntry c2Tree.root).node.id ∈ (startEntry c2Tree.root).parents
        from List.not_mem_nil _)]
      exact c2_loop k (joinPath (sanitize c2Tree.root.name) (sanitize c2S.name))
        (insertId "a" []) (by decide)
  rw [hall fuel] at h
  exact Option.noConfusion h

/-! ## The C8 claim: the end-to-end walk scenario -/

/-- C8 counterexample: walking the main tree built from the scenario's records
yields the path list rooted at the synthetic name "My Drive" (a record
carrying the root id is skipped and the synthetic root keeps its fixed name),
not the claimed list rooted at "R". -/
theorem c8_counterexample :
    walkRun c8Tree.nodes c8Tree.root collectVisit 50 [] =
      some ([("My Drive", "1"), ("My Drive/A.txt", "2"), ("My Drive/B", "3"),
             ("My Drive/C", "2")], none)
    ∧ (["My Drive", "My Drive/A.txt", "My Drive/B", "My Drive/C"] : List String) ≠
        ["R", "R/A.txt", "R/B", "R/C"] := by
  constructor
  · decide
  · decide

/-- C8 (amended): the walk visits exactly the paths `My Drive`, `My Drive/A.txt`,
`My Drive/B`, `My Drive/C`; the entry at `My Drive/C` passes the node with
id 2 (the shortcut's target) to the visit function; and `DownloadTree` derives
no export extension for it — the job paths are exactly `My Drive/A.txt` and
`My Drive/C`, both carrying node id 2. -/
theorem c8_amended :
    walkRun c8Tree.nodes c8Tree.root collectVisit 50 [] =
      some ([("My Drive", "1"), ("My Drive/A.txt", "2"), ("My Drive/B", "3"),
             ("My Drive/C", "2")], none)
    ∧ (DownloadTree c8Tree.nodes c8Tree.root (fun _ => false) 50).map
        (fun r => (r.1.jobs.map fun j => (j.1, j.2.id), r.1.dirs, r.2)) =
      some ([("My Drive/A.txt", "2"), ("My Drive/C", "2")],
            ["My Drive", "My Drive/B"], none)
    ∧ pathExt "My Drive/C" = "" := by
  refine ⟨by decide, by decide, by decide⟩

/-- C9 counterexample: on a tree with a shortcut `C` resolving to an
export-convertible document `D`, the job built for the shortcut's walk entry
is `My Drive/C.docx` — it **does** receive the target type's export extension,
because `Walk` hands the resolved target (with its document mime type) to the
download closure. -/
theorem c9_counterexample :
    walkRun c9Tree.nodes c9Tree.root collectVisit 50 [] =
      some ([("My Drive", "1"), ("My Drive/C", "2"), ("My Drive/D", "2")], none)
    ∧ (DownloadTree c9Tree.nodes c9Tree.root (fun _ => false) 50).map
        (fun r => r.1.jobs.map Prod.fst) =
      some ["My Drive/C.docx", "My Drive/D.docx"]
    ∧ pathExt "My Drive/C.docx" = ".docx" := by
  refine ⟨by decide, by decide, by decide⟩

/-! ## The C9 amended claim: shortcuts to export-convertible targets -/

theorem extRev_eq (l : List Char) :
    extRev l =
      if '.' ∈ l.takeWhile (fun c => decide (c ≠ '/')) then
        (l.takeWhile fun c => decide (c ≠ '/')).takeWhile (fun c => decide (c ≠ '.')) ++ ['.']
      else [] := rfl

/-- Appending a dot-extension (a dot followed by dot-free, slash-free
characters) to any path makes that extension the path's `filepath.Ext`. -/
theorem pathExt_append (cs : List Char) (hcs : ∀ c ∈ cs, c ≠ '.' ∧ c ≠ '/') (q : String) :
    pathExt (q ++ ⟨'.' :: cs⟩) = ⟨'.' :: cs⟩ := by
  have hall1 : ∀ x ∈ cs.reverse ++ ['.'], (fun c => decide (c ≠ '/')) x = true := by
    intro x hx
    simp only [List.mem_append, List.mem_reverse, List.mem_singleton] at hx
    rcases hx with hx | rfl
    · simpa using (hcs x hx).2
    · decide
  have hall2 : ∀ x ∈ cs.reverse, (fun c => decide (c ≠ '.')) x = true := by
    intro x hx
    simp only [List.mem_reverse] at hx
    simpa using (hcs x hx).1
  have hrev : (q ++ (⟨'.' :: cs⟩ : String)).data.reverse =
      (cs.reverse ++ ['.']) ++ q.data.reverse := by
    rw [strData_append, strData_mk, List.reverse_append]
    simp
  have hpre : ((cs.reverse ++ ['.']) ++ q.data.reverse).takeWhile
        (fun c => decide (c ≠ '/')) =
      (cs.reverse ++ ['.']) ++ q.data.reverse.takeWhile (fun c => decide (c ≠ '/')) :=
    takeWhile_append_all _ _ _ hall1
  have hdot : '.' ∈ (cs.reverse ++ ['.']) ++
      q.data.reverse.takeWhile (fun c => decide (c ≠ '/')) := by simp
  have htw2 : ((cs.reverse ++ ['.']) ++
        (q.data.reverse.takeWhile fun c => decide (c ≠ '/'))).takeWhile
        (fun c => decide (c ≠ '.')) = cs.reverse := by
    rw [List.append_assoc, takeWhile_append_all _ _ _ hall2, List.singleton_append,
      List.takeWhile_cons, if_neg (by decide)]
    simp
  have hext : extRev ((q ++ (⟨'.' :: cs⟩ : String)).data.reverse) = cs.reverse ++ ['.'] := by
    rw [hrev, extRev_eq, hpre, if_pos hdot, htw2]
  rw [pathExt, hext]
  simp

/-- A collision rename preserves a dot-extension. -/
theorem renamePath_ext (p : String) (n : Nat) (cs : List Char)
    (h1 : pathExt p = ⟨'.' :: cs⟩) (h2 : ∀ c ∈ cs, c ≠ '.' ∧ c ≠ '/') :
    pathExt (renamePath p n) = pathExt p := by
  rw [show renamePath p n =
      ((⟨p.data.take (p.data.length - (pathExt p).data.length)⟩ : String) ++ "_" ++
        toString n) ++ pathExt p from rfl]
  rw [h1, pathExt_append cs h2]

/-- The `checkpath` loop preserves a dot-extension: the emitted unique path has
the same `filepath.Ext` as the candidate it started from. -/
theorem uniquifyGo_ext : ∀ (fuel : Nat) (files : List (String × Nat)) (p : String)
    (r : List (String × Nat) × String) (cs : List Char),
    pathExt p = ⟨'.' :: cs⟩ → (∀ c ∈ cs, c ≠ '.' ∧ c ≠ '/') →
    uniquifyGo fuel files p = some r → pathExt r.2 = ⟨'.' :: cs⟩ := by
  intro fuel
  induction fuel with
  | zero => intro files p r cs h1 h2 h; exact absurd h (by simp [uniquifyGo])
  | succ n ih =>
    intro files p r cs h1 h2 h
    rw [uniquifyGo_succ] at h
    by_cases hlt : 1 < valAt (bump files p) p
    · rw [if_pos hlt] at h
      have hre : pathExt (renamePath p (valAt (bump files p) p)) = ⟨'.' :: cs⟩ := by
        rw [renamePath_ext p _ cs h1 h2, h1]
      exact ih _ _ _ cs hre h2 h
    · rw [if_neg hlt] at h
      injection h with h
      subst h
      exact h1

/-- Every export extension of the table is a dot followed by dot-free,
slash-free characters. -/
theorem exportExt_shape (mt ext : String) (h : lookupA ExportExtensions mt = some ext) :
    ∃ cs, ext = ⟨'.' :: cs⟩ ∧ ∀ c ∈ cs, c ≠ '.' ∧ c ≠ '/' := by
  simp only [ExportExtensions, lookupA] at h
  split at h
  · injection h with h; subst h; exact ⟨['d', 'o', 'c', 'x'], by decide, by decide⟩
  · split at h
    · injection h with h; subst h; exact ⟨['p', 'p', 't', 'x'], by decide, by decide⟩
    · split at h
      · injection h with h; subst h; exact ⟨['x', 'l', 's', 'x'], by decide, by decide⟩
      · split at h
        · injection h with h; subst h; exact ⟨['s', 'v', 'g'], by decide, by decide⟩
        · split at h
          · injection h with h; subst h; exact ⟨['p', 'd', 'f'], by decide, by decide⟩
          · split at h
            · injection h with h; subst h
              exact ⟨['j', 's', 'o', 'n'], by decide, by decide⟩
            · split at h
              · injection h with h; subst h
                exact ⟨['z', 'i', 'p'], by decide, by decide⟩
              · split at h
                · injection h with h; subst h
                  exact ⟨['t', 'x', 't'], by decide, by decide⟩
                · exact absurd h (by simp [lookupA])

/-- C9 (amended): when `Walk` dequeues an entry whose node is a shortcut with a
resolved link target of an export-convertible kind, the visit runs on the
target, so the job path built by `DownloadTree` **does** receive the export
extension of the target's type: exactly one job is emitted for the entry, and
its final (uniquified) path has that extension as its `filepath.Ext`. -/
theorem c9_amended (m : NodeMap) (mkf : String → Bool) (fuel : Nat)
    (e : WalkEntry) (q : List WalkEntry) (s : DTState) (tid : String) (t : Node)
    (ext : String) (h1 : e.node.id ∉ e.parents) (h2 : e.node.shortcutTarget = some tid)
    (h3 : lookupA m tid = some t) (h4 : t.isFolder = false)
    (h5 : ¬ t.file.mimeType = FileTypeShortcut)
    (h6 : lookupA ExportExtensions t.file.mimeType = some ext) :
    pathExt (uniquify s.files (e.path ++ ext)).2 = ext ∧
    walkAux m (downloadVisit mkf) (fuel + 1) (e :: q) s =
      walkAux m (downloadVisit mkf) fuel
        (q ++ (childNodes m t).map fun c =>
          { node := c, path := joinPath e.path (sanitize c.name),
            parents := insertId t.id e.parents })
        { s with files := (uniquify s.files (e.path ++ ext)).1,
                 jobs := s.jobs ++ [((uniquify s.files (e.path ++ ext)).2, t)] } := by
  have hres : resolveShortcut m e.node = t := by
    simp only [resolveShortcut, h2, h3]
  have hvisit : downloadVisit mkf e.path t s =
      ({ s with files := (uniquify s.files (e.path ++ ext)).1,
                jobs := s.jobs ++ [((uniquify s.files (e.path ++ ext)).2, t)] }, none) := by
    rw [downloadVisit, if_neg (by simp [h4]), if_neg h5]
    simp only [h6]
  constructor
  · obtain ⟨cs, hcs1, hcs2⟩ := exportExt_shape _ _ h6
    have hpe : pathExt (e.path ++ ext) = ⟨'.' :: cs⟩ := by
      rw [hcs1]
      exact pathExt_append cs hcs2 e.path
    have hu := uniquifyGo_ext _ s.files (e.path ++ ext)
      (uniquify s.files (e.path ++ ext)) cs hpe hcs2
      (uniquify_eq s.files (e.path ++ ext))
    rw [hu, hcs1]
  · simp only [walkAux]
    rw [if_neg h1]
    simp only [hres, hvisit]

/-- C9 witness: the shortcut `C` (id 3, resolved target the document node with
id 2) dequeued at path `My Drive/C` in the C9 tree: the emitted job path ends
in the `.docx` export extension. -/
theorem c9_witness :
    pathExt (uniquify [] ("My Drive/C" ++ ".docx")).2 = ".docx" := by
  have h := (c9_amended c9Tree.nodes (fun _ => false) 10
    { node := { id := "3", name := "C",
                file := { id := "3", name := "C", mimeType := FileTypeShortcut,
                          parents := ["1"], shortcutTarget := some "2" },
                files := none, parents := ["1"], shortcutTarget := some "2" },
      path := "My Drive/C", parents := ["1"] }
    []
    { files := [], jobs := [], dirs := ["My Drive"] }
    "2"
    { id := "2", name := "D",
      file := { id := "2", name := "D",
                mimeType := "application/vnd.google-apps.document", parents := ["1"] },
      files := none, parents := ["1"], shortcutTarget := none }
    ".docx"
    (by decide) (by decide) (by decide) (by decide) (by decide) (by decide)).1
  exact h

/-- C10 witness: downloading body "data" for a file whose `ModifiedTime` is the
invalid timestamp "not-a-time" onto an empty filesystem at instant 5 errors,
yet leaves the file created with the body as content and mtime 5. -/
theorem c10_witness :
    Download [] 5 "data"
        { id := "2", name := "A", mimeType := "text/plain", modifiedTime := "not-a-time" }
        "p" =
      ([("p", { content := "data", mtime := 5 })], some "could not parse modified time") := by
  have h := (c10_write_error [] 5 "data" "p"
    { id := "2", name := "A", mimeType := "text/plain", modifiedTime := "not-a-time" }).1
    (by decide) (by decide)
  rw [h.1]
  rfl

/-- C4 witness: a rate-limited 403 fails once and is retried (two calls, one
sleep of the initial delay 3), while the non-API case is covered by the closed
counterexample. -/
theorem c4_witness :
    retryRun 3 5
        (fun i => if i = 0 then some (GoError.api 403 ["rateLimitExceeded"]) else none) 2 =
      some { calls := 2, sleeps := [3], result := none } := by
  have h := c4_amended.2.2
    (fun i => if i = 0 then some (GoError.api 403 ["rateLimitExceeded"]) else none)
    3 5 1 (GoError.api 403 ["rateLimitExceeded"]) rfl (by decide) (by decide)
  rw [h]
  decide

/-! ## The C1 claim: lemmas about `NewTree` -/

theorem lookupA_isSome_iff_mem {α : Type} (l : List (String × α)) (k : String) :
    (lookupA l k).isSome ↔ k ∈ l.map Prod.fst := by
  induction l with
  | nil => simp [lookupA]
  | cons kv rest ih =>
    by_cases h : k = kv.1
    · simp [lookupA, h]
    · simp [lookupA, h, ih]

theorem mapSnd_keys {α β : Type} (F : α → β) (m : List (String × α)) :
    (m.map fun kv => (kv.1, F kv.2)).map Prod.fst = m.map Prod.fst := by
  induction m with
  | nil => rfl
  | cons kv rest ih => simp [ih]

theorem lookupA_mapped (g : GFile → Node) :
    ∀ (l : List GFile) (f : GFile), f ∈ l → (l.map GFile.id).Nodup →
      lookupA (l.map fun x => (x.id, g x)) f.id = some (g f) := by
  intro l
  induction l with
  | nil => simp
  | cons x t ih =>
    intro f hf hnd
    simp only [List.map_cons, List.nodup_cons] at hnd
    by_cases hid : f.id = x.id
    · have hfx : f = x := by
        rcases List.mem_cons.mp hf with rfl | hft
        · rfl
        · exact absurd (hid ▸ List.mem_map_of_mem GFile.id hft) hnd.1
      subst hfx
      simp [lookupA, hid]
    · have hft : f ∈ t := by
        rcases List.mem_cons.mp hf with rfl | hft
        · exact absurd rfl hid
        · exact hft
      simp only [List.map_cons, lookupA, if_neg hid]
      exact ih f hft hnd.2

theorem mem_stableInsert (lt : String → String → Bool) (x a : String) :
    ∀ l, x ∈ stableInsert lt a l ↔ x = a ∨ x ∈ l := by
  intro l
  induction l with
  | nil => simp [stableInsert]
  | cons y ys ih =>
    rw [stableInsert]
    by_cases h : lt a y = true
    · rw [if_pos h]
      simp
    · rw [if_neg h]
      simp only [List.mem_cons, ih]
      tauto

theorem mem_stableSort (lt : String → String → Bool) (x : String) (l : List String) :
    x ∈ stableSort lt l ↔ x ∈ l := by
  suffices h : ∀ (l : List String) (acc : List String),
      x ∈ l.foldl (fun acc y => stableInsert lt y acc) acc ↔ x ∈ acc ∨ x ∈ l by
    rw [stableSort, h l []]
    simp
  intro l
  induction l with
  | nil => intro acc; simp
  | cons y ys ih =>
    intro acc
    rw [List.foldl_cons, ih (stableInsert lt y acc), mem_stableInsert]
    simp only [List.mem_cons]
    tauto

theorem resolveNode_file (m : NodeMap) (n : Node) : (resolveNode m n).file = n.file := by
  rw [resolveNode]
  split
  · split
    · split <;> rfl
    · rfl
  · rfl

theorem resolveNode_files (m : NodeMap) (n : Node) : (resolveNode m n).files = n.files := by
  rw [resolveNode]
  split
  · split
    · split <;> rfl
    · rfl
  · rfl

theorem sortNode_file (m : NodeMap) (n : Node) : (sortNode m n).file = n.file := rfl

theorem sortNode_files (m : NodeMap) (n : Node) :
    (sortNode m n).files = n.files.map (stableSort (idLt m)) := rfl

theorem lookupA_resolvePass (m : NodeMap) (k : String) :
    lookupA (resolvePass m) k = (lookupA m k).map (resolveNode m) :=
  lookupA_mapSnd (resolveNode m) m k

theorem lookupA_sortPass (m : NodeMap) (k : String) :
    lookupA (sortPass m) k = (lookupA m k).map (sortNode m) :=
  lookupA_mapSnd (sortNode m) m k

theorem folderAt_resolvePass (m : NodeMap) (q : String) :
    folderAt (resolvePass m) q = folderAt m q := by
  rw [folderAt, folderAt, lookupA_resolvePass]
  cases lookupA m q with
  | none => rfl
  | some n => simp [Node.isFolder, resolveNode_file]

theorem folderAt_sortPass (m : NodeMap) (q : String) :
    folderAt (sortPass m) q = folderAt m q := by
  rw [folderAt, folderAt, lookupA_sortPass]
  cases lookupA m q with
  | none => rfl
  | some n => simp [Node.isFolder, sortNode_file]

theorem mem_filesAt_sortPass (m : NodeMap) (q x : String) :
    x ∈ filesAt (sortPass m) q ↔ x ∈ filesAt m q := by
  rw [filesAt, filesAt, lookupA_sortPass]
  cases lookupA m q with
  | none => simp
  | some n =>
    simp only [Option.map_some']
    rw [sortNode_files]
    cases n.files with
    | none => simp
    | some l => simp [mem_stableSort]

theorem buildNodes_foldl (rootID : String) :
    ∀ (list : List GFile) (acc : NodeMap),
      (∀ f ∈ list, f.id ≠ rootID → lookupA acc f.id = none) →
      (list.map GFile.id).Nodup →
      list.foldl (fun m f => if f.id = rootID then m else upsertA m f.id (mkNode f)) acc =
        acc ++ (list.filter fun f => decide (f.id ≠ rootID)).map fun f =>
          (f.id, mkNode f) := by
  intro list
  induction list with
  | nil => intro acc _ _; simp
  | cons f t ih =>
    intro acc hacc hnd
    simp only [List.map_cons, List.nodup_cons] at hnd
    by_cases hfr : f.id = rootID
    · rw [List.foldl_cons, if_pos hfr,
        ih acc (fun g hg => hacc g (List.mem_cons_of_mem _ hg)) hnd.2,
        List.filter_cons, if_neg (by simp [hfr])]
    · have hacc2 : ∀ g ∈ t, g.id ≠ rootID →
          lookupA (acc ++ [(f.id, mkNode f)]) g.id = none := by
        intro g hg hgr
        rw [lookupA_append, hacc g (List.mem_cons_of_mem _ hg) hgr]
        have hgf : ¬ g.id = f.id := by
          intro he
          exact hnd.1 (he ▸ List.mem_map_of_mem GFile.id hg)
        simp [lookupA, hgf]
      rw [List.foldl_cons, if_neg hfr,
        upsertA_of_none acc f.id (mkNode f) (hacc f (List.mem_cons_self _ _) hfr),
        ih _ hacc2 hnd.2, List.filter_cons, if_pos (by simp [hfr])]
      simp [List.append_assoc]

theorem buildNodes_eq (rootID : String) (list : List GFile)
    (hnd : (list.map GFile.id).Nodup) :
    buildNodes rootID list = (rootID, rootNode rootID) ::
      (list.filter fun f => decide (f.id ≠ rootID)).map fun f => (f.id, mkNode f) := by
  rw [buildNodes,
    buildNodes_foldl rootID list [(rootID, rootNode rootID)]
      (fun f _ hfr => by simp [lookupA, hfr]) hnd]
  simp

theorem buildNodes_values (rootID : String) (list : List GFile)
    (hnd : (list.map GFile.id).Nodup) (k : String) (n : Node)
    (h : lookupA (buildNodes rootID list) k = some n) :
    n = rootNode rootID ∨ ∃ f, n = mkNode f := by
  rw [buildNodes_eq rootID list hnd] at h
  have hm := lookupA_mem _ _ _ h
  rcases List.mem_cons.mp hm with he | hmm
  · left
    exact (Prod.mk.inj he).2
  · right
    obtain ⟨f, -, he⟩ := List.mem_map.mp hmm
    exact ⟨f, ((Prod.mk.inj he).2).symm⟩

/-- After the first two passes every child list is empty: attachments happen
only in the third pass. -/
theorem filesAt_init (rootID : String) (list : List GFile)
    (hnd : (list.map GFile.id).Nodup) (q : String) :
    filesAt (resolvePass (buildNodes rootID list)) q = [] := by
  rw [filesAt, lookupA_resolvePass]
  cases hl : lookupA (buildNodes rootID list) q with
  | none => rfl
  | some n =>
    simp only [Option.map_some']
    rw [resolveNode_files]
    rcases buildNodes_values rootID list hnd q n hl with rfl | ⟨f, rfl⟩
    · rfl
    · rw [mkNode]
      by_cases h : f.mimeType = FileTypeFolder <;> simp [h]

theorem lookupA_init_record (rootID : String) (list : List GFile)
    (hnd : (list.map GFile.id).Nodup) (f : GFile) (hf : f ∈ list) (hr : f.id ≠ rootID) :
    lookupA (resolvePass (buildNodes rootID list)) f.id =
      some (resolveNode (buildNodes rootID list) (mkNode f)) := by
  have hfilter : f ∈ list.filter fun f => decide (f.id ≠ rootID) :=
    List.mem_filter.mpr ⟨hf, by simp [hr]⟩
  have hndf : ((list.filter fun f => decide (f.id ≠ rootID)).map GFile.id).Nodup :=
    hnd.sublist ((List.filter_sublist list).map GFile.id)
  rw [lookupA_resolvePass, buildNodes_eq rootID list hnd, lookupA, if_neg hr,
    lookupA_mapped mkNode _ f hfilter hndf]
  rfl

theorem recordParents_init (rootID : String) (list : List GFile)
    (hnd : (list.map GFile.id).Nodup) (f : GFile) (hf : f ∈ list) (hr : f.id ≠ rootID) :
    recordParents (resolvePass (buildNodes rootID list)) f.id = f.parents := by
  rw [recordParents, lookupA_init_record rootID list hnd f hf hr]
  show (resolveNode (buildNodes rootID list) (mkNode f)).file.parents = f.parents
  rw [resolveNode_file]
  rfl

theorem mem_keys_init (rootID : String) (list : List GFile)
    (hnd : (list.map GFile.id).Nodup) (f : GFile) (hf : f ∈ list) :
    f.id ∈ (resolvePass (buildNodes rootID list)).map Prod.fst := by
  rw [resolvePass, mapSnd_keys]
  by_cases hr : f.id = rootID
  · rw [buildNodes_eq rootID list hnd]
    simp [hr]
  · rw [buildNodes_eq rootID list hnd]
    have hfilter : f ∈ list.filter fun f => decide (f.id ≠ rootID) :=
      List.mem_filter.mpr ⟨hf, by simp [hr]⟩
    simp only [List.map_cons, List.map_map, List.mem_cons]
    right
    exact List.mem_map.mpr ⟨f, hfilter, rfl⟩

theorem folderAt_updateA (key : String) (g : Node → Node)
    (hg : ∀ n, (g n).file = n.file) (m : NodeMap) (q : String) :
    folderAt (updateA key g m) q = folderAt m q := by
  rw [folderAt, folderAt, lookupA_updateA]
  by_cases h : q = key
  · rw [if_pos h, h]
    cases lookupA m key with
    | none => rfl
    | some n => simp [Node.isFolder, hg]
  · rw [if_neg h]

theorem recordParents_updateA (key : String) (g : Node → Node)
    (hg : ∀ n, (g n).file = n.file) (m : NodeMap) (q : String) :
    recordParents (updateA key g m) q = recordParents m q := by
  rw [recordParents, recordParents, lookupA_updateA]
  by_cases h : q = key
  · rw [if_pos h, h]
    cases lookupA m key with
    | none => rfl
    | some n => simp [hg]
  · rw [if_neg h]

theorem filesAt_updateA_of_files (key : String) (g : Node → Node)
    (hg : ∀ n, (g n).files = n.files) (m : NodeMap) (q : String) :
    filesAt (updateA key g m) q = filesAt m q := by
  rw [filesAt, filesAt, lookupA_updateA]
  by_cases h : q = key
  · rw [if_pos h, h]
    cases lookupA m key with
    | none => rfl
    | some n => simp [hg]
  · rw [if_neg h]

theorem filesAt_appendChild_some (m : NodeMap) (pid fid : String) (p : Node)
    (hp : lookupA m pid = some p) (q : String) :
    filesAt (appendChild m pid fid) q =
      if q = pid then filesAt m pid ++ [fid] else filesAt m q := by
  rw [appendChild, filesAt, lookupA_updateA]
  by_cases h : q = pid
  · rw [if_pos h, if_pos h, hp, filesAt, hp]
    simp
  · rw [if_neg h, if_neg h, filesAt]

theorem folderAt_appendChild (m : NodeMap) (pid fid q : String) :
    folderAt (appendChild m pid fid) q = folderAt m q := by
  rw [appendChild]
  exact folderAt_updateA pid
    (fun p => { p with files := some (p.files.getD [] ++ [fid]) }) (fun n => rfl) m q

theorem folderAt_appendParent (m : NodeMap) (fid pid q : String) :
    folderAt (appendParent m fid pid) q = folderAt m q := by
  rw [appendParent]
  exact folderAt_updateA fid
    (fun n => { n with parents := n.parents ++ [pid] }) (fun n => rfl) m q

theorem recordParents_appendChild (m : NodeMap) (pid fid q : String) :
    recordParents (appendChild m pid fid) q = recordParents m q := by
  rw [appendChild]
  exact recordParents_updateA pid
    (fun p => { p with files := some (p.files.getD [] ++ [fid]) }) (fun n => rfl) m q

theorem recordParents_appendParent (m : NodeMap) (fid pid q : String) :
    recordParents (appendParent m fid pid) q = recordParents m q := by
  rw [appendParent]
  exact recordParents_updateA fid
    (fun n => { n with parents := n.parents ++ [pid] }) (fun n => rfl) m q

theorem filesAt_appendParent (m : NodeMap) (fid pid q : String) :
    filesAt (appendParent m fid pid) q = filesAt m q := by
  rw [appendParent]
  exact filesAt_updateA_of_files fid
    (fun n => { n with parents := n.parents ++ [pid] }) (fun n => rfl) m q

theorem keys_appendChild (m : NodeMap) (pid fid : String) :
    (appendChild m pid fid).map Prod.fst = m.map Prod.fst := by
  rw [appendChild]
  exact updateA_keys _ _ m

theorem keys_appendParent (m : NodeMap) (fid pid : String) :
    (appendParent m fid pid).map Prod.fst = m.map Prod.fst := by
  rw [appendParent]
  exact updateA_keys _ _ m

/-- Full characterization of the inner (`found`) fold of the third pass,
relative to the map it starts from. -/
theorem connectOne_fold (fid : String) :
    ∀ (pids : List String) (m : NodeMap) (b : Bool),
      (∀ q, folderAt (pids.foldl (connectStep fid) (m, b)).1 q = folderAt m q)
      ∧ (∀ q, recordParents (pids.foldl (connectStep fid) (m, b)).1 q = recordParents m q)
      ∧ ((pids.foldl (connectStep fid) (m, b)).1.map Prod.fst = m.map Prod.fst)
      ∧ ((pids.foldl (connectStep fid) (m, b)).2 =
          (b || pids.any fun pid => folderAt m pid))
      ∧ (∀ q x, x ∈ filesAt (pids.foldl (connectStep fid) (m, b)).1 q ↔
          x ∈ filesAt m q ∨ (x = fid ∧ q ∈ pids ∧ folderAt m q = true)) := by
  intro pids
  induction pids with
  | nil =>
    intro m b
    refine ⟨fun q => rfl, fun q => rfl, rfl, by simp, fun q x => by simp⟩
  | cons pid rest ih =>
    intro m b
    rw [List.foldl_cons]
    by_cases hp : folderAt m pid = true
    · have hstep : connectStep fid (m, b) pid =
          (appendParent (appendChild m pid fid) fid pid, true) := by
        rw [connectStep, if_pos hp]
      rw [hstep]
      obtain ⟨ihf, ihr, ihk, ihb, ihmem⟩ :=
        ih (appendParent (appendChild m pid fid) fid pid) true
      have hfold : ∀ q, folderAt (appendParent (appendChild m pid fid) fid pid) q =
          folderAt m q := by
        intro q
        rw [folderAt_appendParent, folderAt_appendChild]
      have hrec : ∀ q, recordParents (appendParent (appendChild m pid fid) fid pid) q =
          recordParents m q := by
        intro q
        rw [recordParents_appendParent, recordParents_appendChild]
      have hkeys : (appendParent (appendChild m pid fid) fid pid).map Prod.fst =
          m.map Prod.fst := by
        rw [keys_appendParent, keys_appendChild]
      obtain ⟨p, hpl⟩ : ∃ p, lookupA m pid = some p := by
        rcases hl : lookupA m pid with - | p
        · rw [folderAt, hl] at hp
          exact absurd hp (by simp)
        · exact ⟨p, rfl⟩
      have hfiles : ∀ q, filesAt (appendParent (appendChild m pid fid) fid pid) q =
          if q = pid then filesAt m pid ++ [fid] else filesAt m q := by
        intro q
        rw [filesAt_appendParent]
        exact filesAt_appendChild_some m pid fid p hpl q
      refine ⟨?_, ?_, ?_, ?_, ?_⟩
      · intro q; rw [ihf q, hfold q]
      · intro q; rw [ihr q, hrec q]
      · rw [ihk, hkeys]
      · rw [ihb]
        simp [List.any_cons, hp]
      · intro q x
        rw [ihmem q x, hfiles q, hfold q]
        by_cases hq : q = pid
        · subst hq
          rw [if_pos rfl]
          simp only [List.mem_append, List.mem_cons, List.not_mem_nil, or_false]
          constructor
          · rintro ((h | rfl) | ⟨rfl, -, -⟩)
            · exact Or.inl h
            · exact Or.inr ⟨rfl, Or.inl trivial, hp⟩
            · exact Or.inr ⟨rfl, Or.inl trivial, hp⟩
          · rintro (h | ⟨rfl, -, -⟩)
            · exact Or.inl (Or.inl h)
            · exact Or.inl (Or.inr rfl)
        · simp only [if_neg hq, List.mem_cons]
          constructor
          · rintro (h | ⟨rfl, hq2, hfq⟩)
            · exact Or.inl h
            · exact Or.inr ⟨rfl, Or.inr hq2, hfq⟩
          · rintro (h | ⟨rfl, hq2 | hq2, hfq⟩)
            · exact Or.inl h
            · exact absurd hq2 hq
            · exact Or.inr ⟨rfl, hq2, hfq⟩
    · have hstep : connectStep fid (m, b) pid = (m, b) := by
        rw [connectStep, if_neg hp]
      rw [hstep]
      obtain ⟨ihf, ihr, ihk, ihb, ihmem⟩ := ih m b
      have hp2 : folderAt m pid = false := by
        cases hfa : folderAt m pid
        · rfl
        · exact absurd hfa hp
      refine ⟨ihf, ihr, ihk, ?_, ?_⟩
      · rw [ihb]
        simp [List.any_cons, hp2]
      · intro q x
        rw [ihmem q x]
        by_cases hq : q = pid
        · subst hq
          simp [hp2]
        · simp only [List.mem_cons]
          constructor
          · rintro (h | ⟨rfl, hq2, hfq⟩)
            · exact Or.inl h
            · exact Or.inr ⟨rfl, Or.inr hq2, hfq⟩
          · rintro (h | ⟨rfl, hq2 | hq2, hfq⟩)
            · exact Or.inl h
            · exact absurd hq2 hq
            · exact Or.inr ⟨rfl, hq2, hfq⟩

theorem filter_congr_my {α : Type} (p q : α → Bool) :
    ∀ (l : List α), (∀ x ∈ l, p x = q x) → l.filter p = l.filter q := by
  intro l
  induction l with
  | nil => intro _; rfl
  | cons a t ih =>
    intro h
    rw [List.filter_cons, List.filter_cons, h a (List.mem_cons_self _ _),
      ih fun x hx => h x (List.mem_cons_of_mem _ hx)]

/-- Full characterization of the third pass's outer fold, relative to the map
it starts from: folder status, metadata records and keys are preserved; an id
`x` sits in the child list of `q` exactly when it was already there or some
processed non-root record `x` listed `q` among its parents and `q` is a folder
of the map; the orphan list collects, in order, the processed non-root ids
none of whose listed parents is a folder of the map. -/
theorem connectPass_fold (rootID : String) :
    ∀ (L : List String) (m : NodeMap) (orph : List String),
      (∀ fid ∈ L, fid ∈ m.map Prod.fst) →
      (∀ q, folderAt (L.foldl (connectNode rootID) (m, orph)).1 q = folderAt m q)
      ∧ (∀ q, recordParents (L.foldl (connectNode rootID) (m, orph)).1 q =
          recordParents m q)
      ∧ ((L.foldl (connectNode rootID) (m, orph)).1.map Prod.fst = m.map Prod.fst)
      ∧ (∀ q x, x ∈ filesAt (L.foldl (connectNode rootID) (m, orph)).1 q ↔
          x ∈ filesAt m q ∨ (x ∈ L ∧ x ≠ rootID ∧ q ∈ recordParents m x ∧
            folderAt m q = true))
      ∧ ((L.foldl (connectNode rootID) (m, orph)).2 = orph ++
          L.filter fun fid => decide (fid ≠ rootID) &&
            !((recordParents m fid).any fun pid => folderAt m pid)) := by
  intro L
  induction L with
  | nil =>
    intro m orph _
    refine ⟨fun q => rfl, fun q => rfl, rfl, fun q x => by simp, by simp⟩
  | cons fid rest ih =>
    intro m orph hkeys
    rw [List.foldl_cons]
    by_cases hfr : fid = rootID
    · subst hfr
      have hstep : connectNode fid (m, orph) fid = (m, orph) := by
        rw [connectNode, if_pos rfl]
      rw [hstep]
      obtain ⟨ihf, ihr, ihk, ihmem, ihorph⟩ :=
        ih m orph (fun g hg => hkeys g (List.mem_cons_of_mem _ hg))
      refine ⟨ihf, ihr, ihk, ?_, ?_⟩
      · intro q x
        rw [ihmem q x]
        simp only [List.mem_cons]
        constructor
        · rintro (h | ⟨hx, hxr, hq, hfq⟩)
          · exact Or.inl h
          · exact Or.inr ⟨Or.inr hx, hxr, hq, hfq⟩
        · rintro (h | ⟨rfl | hx, hxr, hq, hfq⟩)
          · exact Or.inl h
          · exact absurd rfl hxr
          · exact Or.inr ⟨hx, hxr, hq, hfq⟩
      · rw [ihorph, List.filter_cons, if_neg (by simp)]
    · obtain ⟨f, hfl⟩ : ∃ f, lookupA m fid = some f :=
        Option.isSome_iff_exists.mp
          ((lookupA_isSome_iff_mem m fid).mpr (hkeys fid (List.mem_cons_self _ _)))
      obtain ⟨cf, cr, ck, cb, cmem⟩ := connectOne_fold fid f.file.parents m false
      have hrp : recordParents m fid = f.file.parents := by rw [recordParents, hfl]
      have hstep : connectNode rootID (m, orph) fid =
          ((f.file.parents.foldl (connectStep fid) (m, false)).1,
            if (f.file.parents.foldl (connectStep fid) (m, false)).2 = true then orph
            else orph ++ [fid]) := by
        rw [connectNode, if_neg hfr]
        simp only [hfl, connectOne]
        by_cases hb : (f.file.parents.foldl (connectStep fid) (m, false)).2 = true
        · rw [if_pos hb, if_pos hb]
        · rw [if_neg hb, if_neg hb]
      rw [hstep]
      have hkeys1 : ∀ g ∈ rest,
          g ∈ ((f.file.parents.foldl (connectStep fid) (m, false)).1).map Prod.fst := by
        intro g hg
        rw [ck]
        exact hkeys g (List.mem_cons_of_mem _ hg)
      obtain ⟨ihf, ihr, ihk, ihmem, ihorph⟩ :=
        ih (f.file.parents.foldl (connectStep fid) (m, false)).1
          (if (f.file.parents.foldl (connectStep fid) (m, false)).2 = true then orph
           else orph ++ [fid]) hkeys1
      have hff : (fun pid => folderAt
          (f.file.parents.foldl (connectStep fid) (m, false)).1 pid) =
          fun pid => folderAt m pid := funext cf
      refine ⟨?_, ?_, ?_, ?_, ?_⟩
      · intro q; rw [ihf q, cf q]
      · intro q; rw [ihr q, cr q]
      · rw [ihk, ck]
      · intro q x
        rw [ihmem q x, cmem q x, cr x, cf q, ← hrp]
        simp only [List.mem_cons]
        constructor
        · rintro ((h | ⟨rfl, hq, hfq⟩) | ⟨hx, hxr, hq, hfq⟩)
          · exact Or.inl h
          · exact Or.inr ⟨Or.inl rfl, hfr, hq, hfq⟩
          · exact Or.inr ⟨Or.inr hx, hxr, hq, hfq⟩
        · rintro (h | ⟨rfl | hx, hxr, hq, hfq⟩)
          · exact Or.inl (Or.inl h)
          · exact Or.inl (Or.inr ⟨rfl, hq, hfq⟩)
          · exact Or.inr ⟨hx, hxr, hq, hfq⟩
      · rw [ihorph]
        have hcong : rest.filter (fun g => decide (g ≠ rootID) &&
              !((recordParents (f.file.parents.foldl (connectStep fid) (m, false)).1 g).any
                fun pid => folderAt (f.file.parents.foldl (connectStep fid) (m, false)).1
                  pid)) =
            rest.filter fun g => decide (g ≠ rootID) &&
              !((recordParents m g).any fun pid => folderAt m pid) := by
          apply filter_congr_my
          intro g _
          rw [cr g, hff]
        rw [hcong]
        rw [cb] at *
        by_cases hb : (f.file.parents.any fun pid => folderAt m pid) = true
        · have hbb : (false || f.file.parents.any fun pid => folderAt m pid) = true := by
            simpa using hb
          rw [if_pos hbb]
          have hcondf : (decide (fid ≠ rootID) &&
              !((recordParents m fid).any fun pid => folderAt m pid)) = false := by
            rw [hrp]
            simp [hb]
          rw [List.filter_cons, hcondf]
          simp
        · have hb2 : (f.file.parents.any fun pid => folderAt m pid) = false := by
            cases hx : (f.file.parents.any fun pid => folderAt m pid)
            · rfl
            · exact absurd hx hb
          have hbb : ¬ (false || f.file.parents.any fun pid => folderAt m pid) = true := by
            simp [hb2]
          rw [if_neg hbb]
          have hcondt : (decide (fid ≠ rootID) &&
              !((recordParents m fid).any fun pid => folderAt m pid)) = true := by
            rw [hrp]
            simp [hb2, hfr]
          rw [List.filter_cons, hcondt]
          simp [List.append_assoc]

theorem mapReach_single (m : NodeMap) (a x : String) (h : x ∈ filesAt m a) :
    MapReach m a x := by
  apply Relation.ReflTransGen.single
  rw [filesAt] at h
  cases hl : lookupA m a with
  | none => rw [hl] at h; exact absurd h (List.not_mem_nil x)
  | some na =>
    rw [hl] at h
    exact ⟨na, hl, h⟩

/-- A set of ids closed under the child edges of a map contains everything
reachable from any of its members. -/
theorem reach_subset (m : NodeMap) (S : List String)
    (hcl : ∀ u ∈ S, ∀ x ∈ filesAt m u, x ∈ S) :
    ∀ a b, a ∈ S → MapReach m a b → b ∈ S := by
  intro a b ha h
  induction h with
  | refl => exact ha
  | tail _ hbc ih =>
    obtain ⟨na, hna, hc⟩ := hbc
    apply hcl _ ih
    rw [filesAt, hna]
    exact hc

/-- C1: the claim's exactly-one-root dichotomy fails on `c1Records`: the file
`x` (listed under both the designated root and the orphaned folder `p`) is
reachable from the main root AND from the orphan root, while the folders `a`
and `b` (a parent cycle) are reachable from NEITHER root. -/
theorem c1_counterexample :
    (ReachRoot c1Tree "x" ∧ ReachOrphans c1Tree "x")
    ∧ ¬ ReachRoot c1Tree "a" ∧ ¬ ReachOrphans c1Tree "a" := by
  refine ⟨⟨?_, ?_⟩, ?_, ?_⟩
  · exact mapReach_single _ _ _ (by decide)
  · exact ⟨"p", by decide, mapReach_single _ _ _ (by decide)⟩
  · intro h
    exact absurd (reach_subset c1Tree.nodes ["r", "x"] (by decide) _ _ (by decide) h)
      (by decide)
  · rintro ⟨c, hc, hreach⟩
    have hcl : c1Tree.orphans.files.getD [] = ["p"] := by decide
    rw [hcl, List.mem_singleton] at hc
    subst hc
    exact absurd (reach_subset c1Tree.nodes ["p", "x"] (by decide) _ _ (by decide) hreach)
      (by decide)

/-- C1 (amended): attachment is per listed parent, not exactly-one-root.  For a
tree built from records with pairwise distinct ids, a non-root record becomes a
child of the orphan root precisely when none of its listed parents is a folder
of the map, and it becomes a child of exactly those nodes that it lists as
parents and that are folders of the map — possibly several, possibly none
reachable from either root. -/
theorem c1_amended (rootID : String) (list : List GFile)
    (hnd : (list.map GFile.id).Nodup) (f : GFile) (hf : f ∈ list)
    (hr : f.id ≠ rootID) :
    (f.id ∈ (newTree rootID list).orphans.files.getD [] ↔
      ¬ ∃ pid ∈ f.parents, folderAt (newTree rootID list).nodes pid = true)
    ∧ ∀ pid, f.id ∈ filesAt (newTree rootID list).nodes pid ↔
        pid ∈ f.parents ∧ folderAt (newTree rootID list).nodes pid = true := by
  obtain ⟨cf, cr, ck, cmem, corph⟩ :=
    connectPass_fold rootID ((resolvePass (buildNodes rootID list)).map Prod.fst)
      (resolvePass (buildNodes rootID list)) [] (fun g hg => hg)
  have hrpf : recordParents (resolvePass (buildNodes rootID list)) f.id = f.parents :=
    recordParents_init rootID list hnd f hf hr
  have hkf : f.id ∈ (resolvePass (buildNodes rootID list)).map Prod.fst :=
    mem_keys_init rootID list hnd f hf
  have hfolder : ∀ q, folderAt (newTree rootID list).nodes q =
      folderAt (resolvePass (buildNodes rootID list)) q := by
    intro q
    have h1 : folderAt (newTree rootID list).nodes q =
        folderAt (((resolvePass (buildNodes rootID list)).map Prod.fst).foldl
          (connectNode rootID) (resolvePass (buildNodes rootID list), [])).1 q :=
      folderAt_sortPass _ q
    rw [h1, cf q]
  have horphmem : ∀ x, x ∈ (newTree rootID list).orphans.files.getD [] ↔
      x ∈ (((resolvePass (buildNodes rootID list)).map Prod.fst).foldl
        (connectNode rootID) (resolvePass (buildNodes rootID list), [])).2 := by
    intro x
    exact mem_stableSort _ x _
  have hnodesmem : ∀ q x, x ∈ filesAt (newTree rootID list).nodes q ↔
      x ∈ filesAt (((resolvePass (buildNodes rootID list)).map Prod.fst).foldl
        (connectNode rootID) (resolvePass (buildNodes rootID list), [])).1 q := by
    intro q x
    exact mem_filesAt_sortPass _ q x
  constructor
  · rw [horphmem, corph, List.nil_append, List.mem_filter]
    constructor
    · rintro ⟨-, hcond⟩ ⟨pid, hpid, hfq⟩
      rw [hfolder pid] at hfq
      simp only [Bool.and_eq_true, Bool.not_eq_true', decide_eq_true_eq] at hcond
      rw [hrpf] at hcond
      have hany : (f.parents.any fun pid =>
          folderAt (resolvePass (buildNodes rootID list)) pid) = true :=
        List.any_eq_true.mpr ⟨pid, hpid, hfq⟩
      rw [hcond.2] at hany
      exact Bool.noConfusion hany
    · intro hno
      refine ⟨hkf, ?_⟩
      simp only [Bool.and_eq_true, Bool.not_eq_true', decide_eq_true_eq]
      refine ⟨hr, ?_⟩
      rw [hrpf]
      cases hany : (f.parents.any fun pid =>
          folderAt (resolvePass (buildNodes rootID list)) pid) with
      | false => rfl
      | true =>
        obtain ⟨pid, hpid, hfq⟩ := List.any_eq_true.mp hany
        exact absurd ⟨pid, hpid, (hfolder pid).trans hfq⟩ hno
  · intro pid
    rw [hnodesmem pid f.id, cmem pid f.id, filesAt_init rootID list hnd pid, hrpf]
    simp only [List.not_mem_nil, false_or]
    constructor
    · rintro ⟨-, -, h1, h2⟩
      exact ⟨h1, (hfolder pid).trans h2⟩
    · rintro ⟨h1, h2⟩
      exact ⟨hkf, hr, h1, (hfolder pid).symm.trans h2⟩

/-- C1 witness: on the concrete records the amended attachment rule places `x`
under both `r` and `p`, and `p` under the orphan root. -/
theorem c1_witness :
    (c1Records.map GFile.id).Nodup
    ∧ "x" ∈ filesAt (newTree "r" c1Records).nodes "r"
    ∧ "x" ∈ filesAt (newTree "r" c1Records).nodes "p"
    ∧ "p" ∈ (newTree "r" c1Records).orphans.files.getD [] := by
  refine ⟨by decide, ?_, ?_, ?_⟩
  · exact ((c1_amended "r" c1Records (by decide)
      { id := "x", name := "X", mimeType := "text/plain", parents := ["r", "p"] }
      (List.mem_cons_self _ _) (by decide)).2 "r").mpr ⟨by decide, by decide⟩
  · exact ((c1_amended "r" c1Records (by decide)
      { id := "x", name := "X", mimeType := "text/plain", parents := ["r", "p"] }
      (List.mem_cons_self _ _) (by decide)).2 "p").mpr ⟨by decide, by decide⟩
  · exact ((c1_amended "r" c1Records (by decide)
      { id := "p", name := "P", mimeType := FileTypeFolder, parents := ["zz"] }
      (List.mem_cons_of_mem _ (List.mem_cons_self _ _)) (by decide)).1).mpr
      (by decide)

end Drive
